import Mathlib

/-!
Verification of the GPU architecture simulator's memory hierarchy, texture
cache and instrumentation layer.

The development is a shallow embedding of the C++ sources:
  * `GPUCache`, `MemoryHierarchy`   from `src/memory_hierarchy.cpp`
  * `TextureCache`                  from `src/texture_cache.cpp`
  * `PerformanceMonitor`            from `src/performance_monitor.cpp`

Modelling conventions:
  * machine integers are `Nat`, with an explicit `% 2 ^ 64` (resp. `% 2 ^ 32`)
    exactly where the C++ arithmetic can wrap (the texture cache key shift);
  * raw byte buffers (`void*` / `std::vector<uint8_t>` payloads) are total
    functions `Nat → Nat` together with an explicit length where the length is
    observable; `memcpy` becomes a pointwise overlay;
  * wall-clock reads (`high_resolution_clock::now()`) are passed in as an
    explicit `now` parameter (microseconds), so every operation is a pure
    state transformer;
  * `unordered_map` becomes an association list (the C++ container's iteration
    order is unspecified, and no verified property depends on it);
  * the only `float` quantity that influences control flow is the eviction
    priority score `calculate_priority_score` (recency * ln(1+count) * bonus).
    Floating point is not exactly representable here, so the eviction victim
    selection is parameterised by an abstract score function
    `ScoreFn : Nat → TCEntry → Rat`; every theorem below either holds for all
    score functions or concerns an execution that never reaches eviction.
    The write-only tuning parameters (`prefetch_aggressiveness`,
    `eviction_threshold`), and the instrumentation's `double` rates, are
    modelled exactly over `Rat`; the source never branches on them except in
    `tune_performance_parameters`, which only writes them back.
  * the attached `PerformanceMonitor*` of the texture cache is modelled as the
    null pointer case (`perf_monitor_ == nullptr`): all instrumentation calls
    inside `TextureCache` are skipped, which does not affect any cache state.
  * unused-by-the-logic fields (`priority_score`, `spatial_locality`,
    `temporal_locality`, timing histories) are elided where nothing reads them.
-/

/-- Byte buffers: total functions from offset to byte value. -/
abbrev Buf : Type := Nat → Nat

/-- A zero-initialised buffer (`std::vector<uint8_t> v(n)`). -/
def zeroBuf : Buf := fun _ => 0

/-- `memcpy(dst + off, src, cnt)`: overlay `cnt` bytes of `src` into `dst`
starting at `off`. -/
def writeBytes (dst : Buf) (off : Nat) (src : Buf) (cnt : Nat) : Buf :=
  fun i => if off ≤ i ∧ i < off + cnt then src (i - off) else dst i

/-- `memcpy(dst, src + srcOff, cnt)`: the first `cnt` bytes of the result come
from `src` at `srcOff`, the rest is `dst`. -/
def readBytes (dst : Buf) (src : Buf) (srcOff : Nat) (cnt : Nat) : Buf :=
  fun i => if i < cnt then src (srcOff + i) else dst i

/-- First `n` bytes of a buffer, as a list (used only to state properties). -/
def bufList (b : Buf) (n : Nat) : List Nat := (List.range n).map b

/-- Association-list lookup (`unordered_map::find`). -/
def lookupA {K V : Type} [DecidableEq K] : List (K × V) → K → Option V
  | [], _ => none
  | (k, v) :: rest, key => if k = key then some v else lookupA rest key

/-- Association-list insert-or-assign (`map[key] = v`). -/
def insertA {K V : Type} [DecidableEq K] : List (K × V) → K → V → List (K × V)
  | [], key, v => [(key, v)]
  | (k, w) :: rest, key, v =>
    if k = key then (k, v) :: rest else (k, w) :: insertA rest key v

/-- Association-list erase of the first binding of `key` (`map.erase(it)`). -/
def eraseA {K V : Type} [DecidableEq K] : List (K × V) → K → List (K × V)
  | [], _ => []
  | (k, w) :: rest, key => if k = key then rest else (k, w) :: eraseA rest key

/-- Apply `f` to the value bound to `key` (mutation through the entry
pointer returned by `find`). -/
def mapA {K V : Type} [DecidableEq K] (f : V → V) : List (K × V) → K → List (K × V)
  | [], _ => []
  | (k, w) :: rest, key =>
    if k = key then (k, f w) :: rest else (k, w) :: mapA f rest key

/-- First index satisfying a predicate (the linear scan of a cache set). -/
def findIdxA {α : Type} (p : α → Bool) : List α → Option Nat
  | [] => none
  | x :: rest => if p x then some 0 else (findIdxA p rest).map (fun n => n + 1)

/-! ## GPUCache (`src/memory_hierarchy.cpp`) -/

/-- `struct CacheLine` (the payload length always equals `line_size`, which is
kept in the owning cache, so only the content function is stored). -/
structure CacheLine where
  address : Nat
  data : Buf
  valid : Bool
  dirty : Bool
  access_time : Nat

/-- `class GPUCache`: the per-set slot vectors become one function from the
set index to the slot list. -/
structure GPUCache where
  cache_size : Nat
  line_size : Nat
  associativity : Nat
  num_sets : Nat
  sets : Nat → List (Option CacheLine)
  hit_count : Nat
  miss_count : Nat
  access_count : Nat

/-- The `GPUCache` constructor. -/
def GPUCache.create (cache_size line_size associativity : Nat) : GPUCache :=
  { cache_size, line_size, associativity,
    num_sets := cache_size / (line_size * associativity),
    sets := fun _ => List.replicate associativity none,
    hit_count := 0, miss_count := 0, access_count := 0 }

/-- `get_set_index`. -/
def GPUCache.setIdx (c : GPUCache) (a : Nat) : Nat :=
  (a / c.line_size) % c.num_sets

/-- `address & ~(line_size - 1)`; for the power-of-two line sizes used by the
source this mask is exactly rounding down to a multiple of `line_size`. -/
def GPUCache.alignDown (c : GPUCache) (a : Nat) : Nat :=
  a / c.line_size * c.line_size

/-- The test a slot must pass in `find_line`:
`line && line->valid && line->address == (address & ~(line_size-1))`. -/
def matchesLine (target : Nat) : Option CacheLine → Bool
  | some l => l.valid && decide (l.address = target)
  | none => false

/-- Index of the line `find_line` would return. -/
def GPUCache.findIdx (c : GPUCache) (a : Nat) : Option Nat :=
  findIdxA (matchesLine (c.alignDown a)) (c.sets (c.setIdx a))

/-- Replace the slot list of set `s`. -/
def GPUCache.withSet (c : GPUCache) (s : Nat) (l : List (Option CacheLine)) :
    GPUCache :=
  { c with sets := fun t => if t = s then l else c.sets t }

/-- Store line `l` into slot `i` of the set holding address `a`. -/
def GPUCache.putLine (c : GPUCache) (a : Nat) (i : Nat) (l : CacheLine) :
    GPUCache :=
  c.withSet (c.setIdx a) ((c.sets (c.setIdx a)).set i (some l))

/-- `find_line`: returns the matching line (with its `access_time` already
bumped to the current access counter, as the source does) together with its
slot index, and the cache with that bump applied. -/
def GPUCache.touch (c : GPUCache) (a : Nat) :
    Option (CacheLine × Nat) × GPUCache :=
  match c.findIdx a with
  | none => (none, c)
  | some i =>
    match (c.sets (c.setIdx a)).getD i none with
    | none => (none, c)
    | some l =>
      let l' := { l with access_time := c.access_count }
      (some (l', i), c.putLine a i l')

/-- Pure observer: the line `find_line` would find (no `access_time` bump);
used only to state properties. -/
def GPUCache.findLineSpec (c : GPUCache) (a : Nat) : Option CacheLine :=
  match c.findIdx a with
  | none => none
  | some i => (c.sets (c.setIdx a)).getD i none

/-- `GPUCache::read(address, data, size)`: bump the access counter, search the
set; on a hit copy `min(size, line_size - offset)` bytes out of the line and
count a hit, on a miss count a miss (no fill). Returns the hit flag, the new
cache state and the caller's buffer after the copy. -/
def GPUCache.read (c : GPUCache) (a : Nat) (buf : Buf) (size : Nat) :
    Bool × GPUCache × Buf :=
  let c1 : GPUCache := { c with access_count := c.access_count + 1 }
  match c1.touch a with
  | (some (l, _), c2) =>
    let offset := a % c2.line_size
    let copy := min size (c2.line_size - offset)
    (true, { c2 with hit_count := c2.hit_count + 1 }, readBytes buf l.data offset copy)
  | (none, c2) =>
    (false, { c2 with miss_count := c2.miss_count + 1 }, buf)

/-- `!line || !line->valid`: a slot `allocate_line` may take over. -/
def slotFree : Option CacheLine → Bool
  | none => true
  | some l => !l.valid

/-- The comparator passed to `std::min_element` in `allocate_line`. -/
def lineLt (a b : Option CacheLine) : Bool :=
  match a with
  | none => true
  | some la =>
    if !la.valid then true
    else
      match b with
      | none => false
      | some lb => if !lb.valid then false else decide (la.access_time < lb.access_time)

/-- `std::min_element` keeping the first minimum: `best` is the current best
(at index `bestI`), `i` is the index of the head of the remaining list. -/
def minElemIdxAux (lt : Option CacheLine → Option CacheLine → Bool)
    (best : Option CacheLine) (bestI : Nat) :
    List (Option CacheLine) → Nat → Nat
  | [], _ => bestI
  | x :: rest, i =>
    if lt x best then minElemIdxAux lt x i rest (i + 1)
    else minElemIdxAux lt best bestI rest (i + 1)

/-- The slot `allocate_line` victimises: the first free slot, otherwise the
LRU line (first minimum of `lineLt`). -/
def GPUCache.allocIdx (c : GPUCache) (a : Nat) : Nat :=
  let set := c.sets (c.setIdx a)
  match findIdxA slotFree set with
  | some i => i
  | none =>
    match set with
    | [] => 0
    | x :: rest => minElemIdxAux lineLt x 0 rest 1

/-- `GPUCache::write(address, data, size)`: bump the access counter; on a hit
overwrite the line in place, on a miss victimise a slot with a fresh
zero-filled line for the aligned address; in both cases copy
`min(size, line_size - offset)` bytes in and set the dirty bit.
Always returns true. -/
def GPUCache.write (c : GPUCache) (a : Nat) (d : Buf) (size : Nat) :
    Bool × GPUCache :=
  let c1 : GPUCache := { c with access_count := c.access_count + 1 }
  match c1.touch a with
  | (some (l, i), c2) =>
    let c3 : GPUCache := { c2 with hit_count := c2.hit_count + 1 }
    let offset := a % c3.line_size
    let copy := min size (c3.line_size - offset)
    let l' := { l with data := writeBytes l.data offset d copy, dirty := true }
    (true, c3.putLine a i l')
  | (none, c2) =>
    let c3 : GPUCache := { c2 with miss_count := c2.miss_count + 1 }
    let i := c3.allocIdx a
    let l : CacheLine :=
      { address := c3.alignDown a, data := zeroBuf, valid := true,
        dirty := false, access_time := c3.access_count }
    let offset := a % c3.line_size
    let copy := min size (c3.line_size - offset)
    let l' := { l with data := writeBytes l.data offset d copy, dirty := true }
    (true, c3.putLine a i l')

/-- `GPUCache::invalidate(address)`: clear `valid`/`dirty` on the matching
line (the counters are untouched; `find_line` still bumps `access_time`). -/
def GPUCache.invalidate (c : GPUCache) (a : Nat) : GPUCache :=
  match c.touch a with
  | (some (l, i), c2) => c2.putLine a i { l with valid := false, dirty := false }
  | (none, c2) => c2

/-- `GPUCache::flush()`: clear `valid`/`dirty` everywhere. -/
def GPUCache.flush (c : GPUCache) : GPUCache :=
  { c with sets := fun s =>
      (c.sets s).map (fun o => o.map (fun l => { l with valid := false, dirty := false })) }

/-- `GPUCache::get_hit_rate()`. -/
def GPUCache.get_hit_rate (c : GPUCache) : Rat :=
  if c.access_count = 0 then 0 else (c.hit_count : Rat) / (c.access_count : Rat)

/-! ## MemoryHierarchy (`src/memory_hierarchy.cpp`) -/

/-- `class MemoryHierarchy`: L1, L2, flat VRAM, bump allocator. -/
structure MemoryHierarchy where
  l1 : GPUCache
  l2 : GPUCache
  vram : Buf
  vramLen : Nat
  next_allocation_address : Nat
  allocations : List (Nat × Nat)

/-- The `MemoryHierarchy` constructor: L1 = 32 KiB / 64 B / 4-way,
L2 = 512 KiB / 128 B / 8-way, VRAM = 4 GiB of zeroes, allocation cursor at
`0x10000000`. -/
def MemoryHierarchy.create : MemoryHierarchy :=
  { l1 := GPUCache.create (32 * 1024) 64 4,
    l2 := GPUCache.create (512 * 1024) 128 8,
    vram := zeroBuf,
    vramLen := 4 * 1024 * 1024 * 1024,
    next_allocation_address := 0x10000000,
    allocations := [] }

/-- `MemoryHierarchy::read`: try L1; then L2 (filling L1 on an L2 hit); then
VRAM if in bounds (filling L2 then L1); out of bounds fails. -/
def MemoryHierarchy.read (m : MemoryHierarchy) (a : Nat) (buf : Buf) (size : Nat) :
    Bool × MemoryHierarchy × Buf :=
  match m.l1.read a buf size with
  | (true, l1a, buf1) => (true, { m with l1 := l1a }, buf1)
  | (false, l1a, _) =>
    let m1 : MemoryHierarchy := { m with l1 := l1a }
    match m1.l2.read a buf size with
    | (true, l2a, buf2) =>
      let m2 : MemoryHierarchy := { m1 with l2 := l2a }
      (true, { m2 with l1 := (m2.l1.write a buf2 size).2 }, buf2)
    | (false, l2a, _) =>
      let m2 : MemoryHierarchy := { m1 with l2 := l2a }
      if a + size ≤ m2.vramLen then
        let buf3 := readBytes buf m2.vram a size
        let m3 : MemoryHierarchy := { m2 with l2 := (m2.l2.write a buf3 size).2 }
        (true, { m3 with l1 := (m3.l1.write a buf3 size).2 }, buf3)
      else (false, m2, buf)

/-- `MemoryHierarchy::write`: write through to L1 and L2 unconditionally, then
to VRAM only if in bounds; out of bounds returns false. -/
def MemoryHierarchy.write (m : MemoryHierarchy) (a : Nat) (d : Buf) (size : Nat) :
    Bool × MemoryHierarchy :=
  let m1 : MemoryHierarchy :=
    { m with l1 := (m.l1.write a d size).2, l2 := (m.l2.write a d size).2 }
  if a + size ≤ m1.vramLen then
    (true, { m1 with vram := writeBytes m1.vram a d size })
  else (false, m1)

/-- `MemoryHierarchy::allocate`: round the size up to a multiple of 16; fail
with the sentinel 0 if the cursor would pass the end of VRAM; otherwise record
the allocation and advance the cursor. -/
def MemoryHierarchy.allocate (m : MemoryHierarchy) (size : Nat) :
    Nat × MemoryHierarchy :=
  let address := m.next_allocation_address
  let size' := (size + 15) / 16 * 16
  if m.vramLen < address + size' then (0, m)
  else
    (address,
     { m with allocations := insertA m.allocations address size',
              next_allocation_address := address + size' })

/-- The addresses the `deallocate` loop visits: `address`, `address + 64`, …
while below `address + size`. -/
def strides (a size : Nat) : List Nat :=
  (List.range ((size + 63) / 64)).map (fun k => a + 64 * k)

/-- `MemoryHierarchy::deallocate`: if the address is a recorded allocation,
invalidate L1 and L2 at every 64-byte stride of the recorded range and erase
the record; otherwise a no-op. -/
def MemoryHierarchy.deallocate (m : MemoryHierarchy) (a : Nat) : MemoryHierarchy :=
  match lookupA m.allocations a with
  | none => m
  | some size =>
    let m1 := (strides a size).foldl
      (fun acc p =>
        { acc with l1 := acc.l1.invalidate p, l2 := acc.l2.invalidate p }) m
    { m1 with allocations := eraseA m1.allocations a }

/-- `MemoryHierarchy::flush_all_caches`. -/
def MemoryHierarchy.flush_all_caches (m : MemoryHierarchy) : MemoryHierarchy :=
  { m with l1 := m.l1.flush, l2 := m.l2.flush }

/-! ## TextureCache (`src/texture_cache.cpp`) -/

/-- `struct AccessPattern` (the unused locality floats are elided). -/
structure AccessPattern where
  texture_id : Nat
  mip_level : Nat
  timestamp : Nat

/-- `struct TextureCacheEntry`: the payload vector is its length `dataLen`
plus its content `data`; the write-only float `priority_score` is elided. -/
structure TCEntry where
  texture_id : Nat
  mip_level : Nat
  address : Nat
  dataLen : Nat
  data : Buf
  last_access_time : Nat
  access_count : Nat
  is_prefetched : Bool

/-- `TextureCache::CacheMetrics` (raw counters; the derived rates are
computed by `get_metrics`). -/
structure CacheMetrics where
  cache_hits : Nat
  cache_misses : Nat
  prefetch_hits : Nat
  prefetch_misses : Nat
  bytes_transferred : Nat

def CacheMetrics.zero : CacheMetrics :=
  { cache_hits := 0, cache_misses := 0, prefetch_hits := 0,
    prefetch_misses := 0, bytes_transferred := 0 }

/-- `class TextureCache` (no attached `PerformanceMonitor`, see the header
comment). -/
structure TextureCache where
  max_cache_size_bytes : Nat
  current_cache_size_bytes : Nat
  cache_entries : List (Nat × TCEntry)
  prefetch_queue : List Nat
  prefetch_distance : Nat
  smart_prefetching_enabled : Bool
  adaptive_caching_enabled : Bool
  recent_accesses : List AccessPattern
  max_pattern_history : Nat
  metrics : CacheMetrics
  last_optimization_time : Nat
  prefetch_aggressiveness : Rat
  eviction_threshold : Rat
  optimization_interval_ms : Nat

/-- The `TextureCache(cache_size_mb)` constructor; `now0` is the construction
wall-clock time stamped into `last_optimization_time_`. -/
def TextureCache.create (cache_size_mb now0 : Nat) : TextureCache :=
  { max_cache_size_bytes := cache_size_mb * 1024 * 1024,
    current_cache_size_bytes := 0,
    cache_entries := [],
    prefetch_queue := [],
    prefetch_distance := 100,
    smart_prefetching_enabled := true,
    adaptive_caching_enabled := true,
    recent_accesses := [],
    max_pattern_history := 1000,
    metrics := CacheMetrics.zero,
    last_optimization_time := now0,
    prefetch_aggressiveness := 7 / 10,
    eviction_threshold := 4 / 5,
    optimization_interval_ms := 100 }

/-- `enable_smart_prefetching`. -/
def TextureCache.enable_smart_prefetching (tc : TextureCache) (b : Bool) :
    TextureCache :=
  { tc with smart_prefetching_enabled := b }

/-- `enable_adaptive_caching`. -/
def TextureCache.enable_adaptive_caching (tc : TextureCache) (b : Bool) :
    TextureCache :=
  { tc with adaptive_caching_enabled := b }

/-- The cache key `(texture_id << 8) | mip_level`, in `uint64_t` arithmetic
(`texture_id : uint64_t`, `mip_level : uint32_t`). -/
def cacheKey (texture_id mip_level : Nat) : Nat :=
  Nat.lor (texture_id * 256 % 2 ^ 64) (mip_level % 2 ^ 32)

/-- Abstract stand-in for the `float`-valued
`calculate_priority_score(entry)` at wall-clock time `now`: see the header
comment on floating point. -/
abbrev ScoreFn : Type := Nat → TCEntry → Rat

/-- `std::min_element` over the entry map, keeping the first minimum in
iteration order. -/
def minEntryAux (score : TCEntry → Rat) :
    (Nat × TCEntry) → List (Nat × TCEntry) → Nat × TCEntry
  | best, [] => best
  | best, x :: rest =>
    if score x.2 < score best.2 then minEntryAux score x rest
    else minEntryAux score best rest

/-- `evict_least_valuable_entry`: drop the entry with the lowest priority
score, subtract its payload size, and return its VRAM region. -/
def TextureCache.evictOne (sf : ScoreFn) (now : Nat) (tc : TextureCache)
    (m : MemoryHierarchy) : TextureCache × MemoryHierarchy :=
  match tc.cache_entries with
  | [] => (tc, m)
  | e :: rest =>
    let victim := minEntryAux (sf now) e rest
    ({ tc with
        current_cache_size_bytes := tc.current_cache_size_bytes - victim.2.dataLen,
        cache_entries := eraseA tc.cache_entries victim.1 },
     m.deallocate victim.2.address)

/-- The `while` loop at the head of `allocate_entry`; each iteration evicts
one entry, so `fuel := cache_entries.length` makes the model exact (the
loop's guard requires a nonempty map). -/
def TextureCache.evictLoop (sf : ScoreFn) (now size : Nat) :
    Nat → TextureCache → MemoryHierarchy → TextureCache × MemoryHierarchy
  | 0, tc, m => (tc, m)
  | fuel + 1, tc, m =>
    if tc.max_cache_size_bytes < tc.current_cache_size_bytes + size ∧
        tc.cache_entries.isEmpty = false then
      let p := TextureCache.evictOne sf now tc m
      TextureCache.evictLoop sf now size fuel p.1 p.2
    else (tc, m)

/-- `allocate_entry`: evict until the new payload fits (or the map is empty),
then insert a freshly constructed entry for the key and grow the size
counter. -/
def TextureCache.allocate_entry (sf : ScoreFn) (now : Nat) (tc : TextureCache)
    (m : MemoryHierarchy) (texture_id mip_level address size : Nat) :
    TextureCache × MemoryHierarchy :=
  let p := TextureCache.evictLoop sf now size tc.cache_entries.length tc m
  let tc1 := p.1
  let entry : TCEntry :=
    { texture_id, mip_level, address, dataLen := size, data := zeroBuf,
      last_access_time := 0, access_count := 0, is_prefetched := false }
  ({ tc1 with
      cache_entries := insertA tc1.cache_entries (cacheKey texture_id mip_level) entry,
      current_cache_size_bytes := tc1.current_cache_size_bytes + size },
   p.2)

/-- Mutation through the `TextureCacheEntry*` returned by `allocate_entry` /
`find`. -/
def TextureCache.updateEntry (tc : TextureCache) (key : Nat)
    (f : TCEntry → TCEntry) : TextureCache :=
  { tc with cache_entries := mapA f tc.cache_entries key }

/-- `tune_performance_parameters` (over `Rat`, see the header comment): the
rates are computed from the raw counters and the two tuning knobs are nudged
and clamped. -/
def TextureCache.tune_performance_parameters (tc : TextureCache) : TextureCache :=
  let hits := tc.metrics.cache_hits
  let misses := tc.metrics.cache_misses
  let hit_rate : Rat := (hits : Rat) / ((max 1 (hits + misses) : Nat) : Rat)
  let ph := tc.metrics.prefetch_hits
  let pm := tc.metrics.prefetch_misses
  let pe : Rat := (ph : Rat) / ((max 1 (ph + pm) : Nat) : Rat)
  let aggr :=
    if 7 / 10 < pe then min 1 (tc.prefetch_aggressiveness + 1 / 10)
    else if pe < 3 / 10 then max (1 / 10) (tc.prefetch_aggressiveness - 1 / 10)
    else tc.prefetch_aggressiveness
  let evThr :=
    if 9 / 10 < hit_rate then min (9 / 10) (tc.eviction_threshold + 1 / 20)
    else if hit_rate < 7 / 10 then max (1 / 2) (tc.eviction_threshold - 1 / 20)
    else tc.eviction_threshold
  { tc with prefetch_aggressiveness := aggr, eviction_threshold := evThr }

/-- `prefetch_texture(texture_id, mip_level)`: no-op when the key is already
resident; otherwise enqueue the key, immediately dequeue it, allocate a 1 MiB
VRAM region (dropping the request when allocation fails), fill the entry from
the hierarchy and mark it prefetched. -/
def TextureCache.prefetch_texture (sf : ScoreFn) (tc : TextureCache)
    (m : MemoryHierarchy) (texture_id mip_level now : Nat) :
    TextureCache × MemoryHierarchy :=
  let key := cacheKey texture_id mip_level
  if (lookupA tc.cache_entries key).isSome then (tc, m)
  else
    match tc.prefetch_queue ++ [key] with
    | [] => (tc, m)
    | pk :: restQueue =>
      let tc1 : TextureCache := { tc with prefetch_queue := restQueue }
      let pid := pk / 256
      let pmip := pk % 256
      let texture_size := 1024 * 1024
      let am := m.allocate texture_size
      if am.1 = 0 then (tc1, am.2)
      else
        let p := TextureCache.allocate_entry sf now tc1 am.2 pid pmip am.1 texture_size
        let rm := p.2.read am.1 zeroBuf texture_size
        let tc2 := TextureCache.updateEntry p.1 (cacheKey pid pmip)
          (fun e => { e with data := rm.2.2, is_prefetched := true })
        ({ tc2 with metrics := { tc2.metrics with
            bytes_transferred := tc2.metrics.bytes_transferred + texture_size } },
         rm.2.1)

/-- `predict_future_accesses`: with at least three recorded accesses, compare
the last two; same texture id predicts the next mip level (when `< 16`),
texture id increment predicts the next texture at the same mip level. -/
def TextureCache.predict_future_accesses (sf : ScoreFn) (tc : TextureCache)
    (m : MemoryHierarchy) (now : Nat) : TextureCache × MemoryHierarchy :=
  if tc.recent_accesses.length < 3 then (tc, m)
  else
    match tc.recent_accesses.getLast?,
          tc.recent_accesses.get? (tc.recent_accesses.length - 2) with
    | some lastA, some prevA =>
      if prevA.texture_id = lastA.texture_id then
        let next_mip := (lastA.mip_level + 1) % 2 ^ 32
        if next_mip < 16 then
          TextureCache.prefetch_texture sf tc m lastA.texture_id next_mip now
        else (tc, m)
      else if lastA.texture_id = (prevA.texture_id + 1) % 2 ^ 64 then
        TextureCache.prefetch_texture sf tc m ((lastA.texture_id + 1) % 2 ^ 64)
          lastA.mip_level now
      else (tc, m)
    | _, _ => (tc, m)

/-- The miss tail of `read_texture` (entered from the lookup miss and from
the oversize-slice fall-through): count the miss, allocate
`max(size, 1 MiB)` of VRAM, fill a fresh buffer through the hierarchy,
install the entry (evicting as needed), copy the requested slice out and run
the periodic adaptive retune. -/
def TextureCache.readMiss (sf : ScoreFn) (tc : TextureCache)
    (m : MemoryHierarchy) (texture_id mip_level offset size : Nat) (buf : Buf)
    (now : Nat) : Bool × TextureCache × MemoryHierarchy × Buf :=
  let tc1 : TextureCache := { tc with metrics := { tc.metrics with
    cache_misses := tc.metrics.cache_misses + 1 } }
  let texture_size := max size (1024 * 1024)
  let am := m.allocate texture_size
  if am.1 = 0 then (false, tc1, am.2, buf)
  else
    let rm := am.2.read am.1 zeroBuf texture_size
    if rm.1 = false then (false, tc1, rm.2.1.deallocate am.1, buf)
    else
      let p := TextureCache.allocate_entry sf now tc1 rm.2.1 texture_id mip_level
        am.1 texture_size
      let tc2 := TextureCache.updateEntry p.1 (cacheKey texture_id mip_level)
        (fun e => { e with data := rm.2.2, dataLen := texture_size,
                           last_access_time := now, access_count := 1,
                           is_prefetched := false })
      let buf' := if offset + size ≤ texture_size then readBytes buf rm.2.2 offset size
                  else buf
      let tc3 : TextureCache := { tc2 with metrics := { tc2.metrics with
        bytes_transferred := tc2.metrics.bytes_transferred + texture_size } }
      let tc4 :=
        if tc3.adaptive_caching_enabled ∧
            tc3.optimization_interval_ms ≤ (now - tc3.last_optimization_time) / 1000 then
          { tc3.tune_performance_parameters with last_optimization_time := now }
        else tc3
      (true, tc4, p.2, buf')

/-- `read_texture(texture_id, mip_level, offset, data, size)` at wall-clock
time `now` (µs): record the access pattern, look the key up; an in-bounds
resident slice is a hit (updating the entry metadata, the metrics and, with
smart prefetching on, running the predictor); everything else falls through
to the miss tail. -/
def TextureCache.read_texture (sf : ScoreFn) (tc : TextureCache)
    (m : MemoryHierarchy) (texture_id mip_level offset size : Nat) (buf : Buf)
    (now : Nat) : Bool × TextureCache × MemoryHierarchy × Buf :=
  let recent :=
    if tc.max_pattern_history ≤ tc.recent_accesses.length then
      tc.recent_accesses.drop 1
    else tc.recent_accesses
  let tc0 : TextureCache :=
    { tc with recent_accesses := recent ++ [⟨texture_id, mip_level, now⟩] }
  let key := cacheKey texture_id mip_level
  match lookupA tc0.cache_entries key with
  | some entry =>
    let entry1 := { entry with last_access_time := now,
                               access_count := entry.access_count + 1 }
    let tcm : TextureCache :=
      { tc0 with cache_entries := insertA tc0.cache_entries key entry1 }
    if offset + size ≤ entry1.dataLen then
      let buf' := readBytes buf entry1.data offset size
      let tch : TextureCache := { tcm with metrics := { tcm.metrics with
        cache_hits := tcm.metrics.cache_hits + 1,
        prefetch_hits := tcm.metrics.prefetch_hits +
          (if entry1.is_prefetched then 1 else 0) } }
      let p :=
        if tch.smart_prefetching_enabled then
          TextureCache.predict_future_accesses sf tch m now
        else (tch, m)
      (true, p.1, p.2, buf')
    else
      TextureCache.readMiss sf tcm m texture_id mip_level offset size buf now
  | none =>
    TextureCache.readMiss sf tc0 m texture_id mip_level offset size buf now

/-- The body of the `invalidate_texture` erase loop: walk the map, dropping
every entry of the texture, subtracting each payload size as it goes and
returning each VRAM region. -/
def invalidateGo (texture_id : Nat) :
    List (Nat × TCEntry) → Nat → MemoryHierarchy →
    List (Nat × TCEntry) × Nat × MemoryHierarchy
  | [], cur, m => ([], cur, m)
  | e :: rest, cur, m =>
    if e.2.texture_id = texture_id then
      invalidateGo texture_id rest (cur - e.2.dataLen) (m.deallocate e.2.address)
    else
      let p := invalidateGo texture_id rest cur m
      (e :: p.1, p.2.1, p.2.2)

/-- `invalidate_texture(texture_id)`. -/
def TextureCache.invalidate_texture (tc : TextureCache) (m : MemoryHierarchy)
    (texture_id : Nat) : TextureCache × MemoryHierarchy :=
  let p := invalidateGo texture_id tc.cache_entries tc.current_cache_size_bytes m
  ({ tc with cache_entries := p.1, current_cache_size_bytes := p.2.1 }, p.2.2)

/-- `flush()`: return every VRAM region, clear the map and the prefetch
queue, reset the size counter. -/
def TextureCache.flush (tc : TextureCache) (m : MemoryHierarchy) :
    TextureCache × MemoryHierarchy :=
  ({ tc with cache_entries := [], current_cache_size_bytes := 0,
             prefetch_queue := [] },
   tc.cache_entries.foldl (fun acc e => acc.deallocate e.2.address) m)

/-! ## Operation traces -/

/-- One public `GPUCache` operation. -/
inductive GOp where
  | read (a size : Nat)
  | write (a : Nat) (d : Buf) (size : Nat)
  | invalidate (a : Nat)
  | flush

/-- State effect of one `GPUCache` operation (the read target buffer is
immaterial to the cache state). -/
def GPUCache.step (c : GPUCache) : GOp → GPUCache
  | GOp.read a size => (c.read a zeroBuf size).2.1
  | GOp.write a d size => (c.write a d size).2
  | GOp.invalidate a => c.invalidate a
  | GOp.flush => c.flush

/-- Run a sequence of `GPUCache` operations. -/
def GPUCache.run (c : GPUCache) (ops : List GOp) : GPUCache :=
  ops.foldl GPUCache.step c

/-- One public `MemoryHierarchy` operation. -/
inductive MOp where
  | read (a size : Nat)
  | write (a : Nat) (d : Buf) (size : Nat)
  | allocate (size : Nat)
  | deallocate (a : Nat)
  | flushAll

/-- State effect of one `MemoryHierarchy` operation. -/
def MemoryHierarchy.step (m : MemoryHierarchy) : MOp → MemoryHierarchy
  | MOp.read a size => (m.read a zeroBuf size).2.1
  | MOp.write a d size => (m.write a d size).2
  | MOp.allocate size => (m.allocate size).2
  | MOp.deallocate a => m.deallocate a
  | MOp.flushAll => m.flush_all_caches

/-- Run a sequence of `MemoryHierarchy` operations. -/
def MemoryHierarchy.run (m : MemoryHierarchy) (ops : List MOp) : MemoryHierarchy :=
  ops.foldl MemoryHierarchy.step m

/-- The addresses returned by the `allocate` calls of a trace, in order. -/
def allocResults (m : MemoryHierarchy) : List MOp → List Nat
  | [] => []
  | op :: rest =>
    match op with
    | MOp.allocate s => (m.allocate s).1 :: allocResults (m.step op) rest
    | _ => allocResults (m.step op) rest

/-- One public `TextureCache` operation (each carries the wall-clock µs at
which it runs). -/
inductive TCOp where
  | read (texture_id mip_level offset size : Nat) (buf : Buf) (now : Nat)
  | prefetch (texture_id mip_level now : Nat)
  | invalidate (texture_id : Nat)
  | flush

/-- State effect of one `TextureCache` operation on the texture cache and the
memory hierarchy below it. -/
def TCstep (sf : ScoreFn) (s : TextureCache × MemoryHierarchy) :
    TCOp → TextureCache × MemoryHierarchy
  | TCOp.read id mip off size buf now =>
    let r := TextureCache.read_texture sf s.1 s.2 id mip off size buf now
    (r.2.1, r.2.2.1)
  | TCOp.prefetch id mip now => TextureCache.prefetch_texture sf s.1 s.2 id mip now
  | TCOp.invalidate id => TextureCache.invalidate_texture s.1 s.2 id
  | TCOp.flush => TextureCache.flush s.1 s.2

/-- Run a sequence of `TextureCache` operations. -/
def TCrun (sf : ScoreFn) (s : TextureCache × MemoryHierarchy) (ops : List TCOp) :
    TextureCache × MemoryHierarchy :=
  ops.foldl (TCstep sf) s

/-- A concrete score function used for executions that never reach the
eviction comparison. -/
def sf0 : ScoreFn := fun _ _ => 0

/-- Sum of the payload sizes of the resident entries. -/
def sumPayload (l : List (Nat × TCEntry)) : Nat :=
  (l.map (fun e => e.2.dataLen)).sum

/-- The size invariant of claim C1: resident payload bytes equal
`current_cache_size_bytes`, which stays within `max_cache_size_bytes`. -/
def TCInv (tc : TextureCache) : Prop :=
  sumPayload tc.cache_entries = tc.current_cache_size_bytes ∧
  tc.current_cache_size_bytes ≤ tc.max_cache_size_bytes

/-- Payload length of the entry resident at `key` (0 when absent); an
observer used to state properties. -/
def entryLen (tc : TextureCache) (key : Nat) : Nat :=
  match lookupA tc.cache_entries key with
  | some e => e.dataLen
  | none => 0

/-- Side conditions under which one operation provably preserves `TCInv`
(the claim C1 amendment): a read must not fall through on a resident key with
an oversize slice, and no single entry may exceed the capacity. -/
def TCOpSafe (tc : TextureCache) : TCOp → Prop
  | TCOp.read id mip offset size _ _ =>
    ((lookupA tc.cache_entries (cacheKey id mip)).isSome = true →
      offset + size ≤ entryLen tc (cacheKey id mip)) ∧
    max size (1024 * 1024) ≤ tc.max_cache_size_bytes
  | TCOp.prefetch _ _ _ => 1024 * 1024 ≤ tc.max_cache_size_bytes
  | TCOp.invalidate _ => True
  | TCOp.flush => True

/-- A trace whose every operation is `TCOpSafe` in the state it runs in. -/
inductive SafeTrace (sf : ScoreFn) :
    TextureCache × MemoryHierarchy → List TCOp → Prop
  | nil (s : TextureCache × MemoryHierarchy) : SafeTrace sf s []
  | cons (s : TextureCache × MemoryHierarchy) (op : TCOp) (ops : List TCOp) :
      TCOpSafe s.1 op → SafeTrace sf (TCstep sf s op) ops →
      SafeTrace sf s (op :: ops)

/-! ## PerformanceMonitor (`src/performance_monitor.cpp`)

Only the state consumed by the verified claims is modelled: the per-cache
hit/miss recorders, the alert thresholds and the frame-time history (the
timing, counter and bandwidth maps are independent of these). Alert
messages are represented by the metric name that fired; the source embeds
formatted numbers in the message text, which carries no further state. -/

structure PerformanceMonitor where
  cache_hits : List (String × Nat)
  cache_misses : List (String × Nat)
  performance_thresholds : List (String × Rat)
  frame_times : List Rat

def PerformanceMonitor.create : PerformanceMonitor :=
  { cache_hits := [], cache_misses := [], performance_thresholds := [],
    frame_times := [] }

/-- `map[key]++` on a defaulted map. -/
def bumpA (l : List (String × Nat)) (k : String) : List (String × Nat) :=
  match lookupA l k with
  | some v => insertA l k (v + 1)
  | none => insertA l k 1

/-- `record_cache_access(cache, hit)`. -/
def PerformanceMonitor.record_cache_access (pm : PerformanceMonitor)
    (cache : String) (hit : Bool) : PerformanceMonitor :=
  if hit then { pm with cache_hits := bumpA pm.cache_hits cache }
  else { pm with cache_misses := bumpA pm.cache_misses cache }

/-- `set_performance_threshold(metric, threshold)`. -/
def PerformanceMonitor.set_performance_threshold (pm : PerformanceMonitor)
    (metric : String) (threshold : Rat) : PerformanceMonitor :=
  { pm with performance_thresholds := insertA pm.performance_thresholds metric threshold }

/-- `lhs.isPrefixOf`-style test over character lists. -/
def isPrefixCL : List Char → List Char → Bool
  | [], _ => true
  | _ :: _, [] => false
  | c :: cs, d :: ds => c == d && isPrefixCL cs ds

/-- `std::string::find(pat)`: index of the first occurrence, `none` for
`npos`. -/
def findSubIdx (pat : List Char) : List Char → Option Nat
  | [] => if pat.isEmpty then some 0 else none
  | c :: rest =>
    if isPrefixCL pat (c :: rest) then some 0
    else (findSubIdx pat rest).map (fun n => n + 1)

/-- The per-cache hit rates of `generate_report` (caches with at least one
recorded hit entry and a positive total). -/
def PerformanceMonitor.cacheHitRates (pm : PerformanceMonitor) :
    List (String × Rat) :=
  pm.cache_hits.foldr (fun kv acc =>
    let misses := (lookupA pm.cache_misses kv.1).getD 0
    let total := kv.2 + misses
    if 0 < total then (kv.1, (kv.2 : Rat) / (total : Rat)) :: acc else acc) []

/-- Whether one `(metric, threshold)` pair of `check_performance_alerts`
fires. -/
def alertFires (pm : PerformanceMonitor) (metric : String) (threshold : Rat) :
    Bool :=
  if metric == "frame_time_ms" && !pm.frame_times.isEmpty then
    match pm.frame_times.getLast? with
    | some t => decide (threshold < t)
    | none => false
  else if (findSubIdx "hit_rate".data metric.data).isSome then
    let cache_name : String :=
      match findSubIdx "_hit_rate".data metric.data with
      | some i => String.mk (metric.data.take i)
      | none => metric
    match lookupA pm.cache_hits cache_name, lookupA pm.cache_misses cache_name with
    | some hits, some misses =>
      if 0 < hits + misses then
        decide ((hits : Rat) / (((hits + misses : Nat)) : Rat) < threshold)
      else false
    | _, _ => false
  else false

/-- `check_performance_alerts()`: the metric names that fire, in threshold
map order. -/
def PerformanceMonitor.check_performance_alerts (pm : PerformanceMonitor) :
    List String :=
  pm.performance_thresholds.foldr
    (fun mt acc => if alertFires pm mt.1 mt.2 then mt.1 :: acc else acc) []

/-! ## Invariants used by the verification -/

/-- At most one valid line per address within one cache set. -/
def uniqSet (l : List (Option CacheLine)) : Prop :=
  ∀ i j li lj, i < j → l.get? i = some (some li) → l.get? j = some (some lj) →
    li.valid = true → lj.valid = true → li.address ≠ lj.address

/-- At most one valid line per address in every set of the cache. -/
def GPUCache.uniq (c : GPUCache) : Prop := ∀ s, uniqSet (c.sets s)

/-- Structural facts about a cache that every operation preserves: positive
geometry and full-length slot lists. -/
def GPUCache.shape (c : GPUCache) (ls assoc : Nat) : Prop :=
  c.line_size = ls ∧ c.associativity = assoc ∧ 0 < assoc ∧
  ∀ s, (c.sets s).length = assoc

/-- The positivity condition of claim C5's amendment: every requested
allocation size is nonzero. -/
def allocPos : MOp → Prop
  | MOp.allocate s => 1 ≤ s
  | _ => True

/-- There is no valid cached line that `find_line` would return for `a`. -/
def GPUCache.noLine (c : GPUCache) (a : Nat) : Prop := c.findLineSpec a = none

/-- The cache line `find_line` would return for `a` holds the first
`min(size, line_size - a mod line_size)` bytes of `d` at `a`'s in-line
offset: the cache captured (the in-line clip of) a write of `d` at `a`. -/
def lineCaptures (c : GPUCache) (a : Nat) (d : Buf) (size : Nat) : Prop :=
  ∃ l, c.findLineSpec a = some l ∧
    ∀ i, i < min size (c.line_size - a % c.line_size) →
      l.data (a % c.line_size + i) = d i

/-- `c'` has the same geometry and per-set slot counts as `c`. -/
def sameFrame (c c' : GPUCache) : Prop :=
  c'.line_size = c.line_size ∧ c'.associativity = c.associativity ∧
  c'.num_sets = c.num_sets ∧ ∀ s, (c'.sets s).length = (c.sets s).length

/-- The geometry every reachable hierarchy state has: L1 is 64-byte-line
4-way, L2 is 128-byte-line 8-way, with full slot lists. -/
def MHframe (m : MemoryHierarchy) : Prop :=
  m.l1.shape 64 4 ∧ m.l2.shape 128 8

/-- The inductive strengthening of `TCInv` used in the proofs: the size
invariant plus key uniqueness of the entry map and the (always-restored)
emptiness of the prefetch queue. -/
def TCWF (tc : TextureCache) : Prop :=
  sumPayload tc.cache_entries = tc.current_cache_size_bytes ∧
  tc.current_cache_size_bytes ≤ tc.max_cache_size_bytes ∧
  (tc.cache_entries.map Prod.fst).Nodup ∧
  tc.prefetch_queue = []

/-! ## Concrete executions referenced by the verification -/

/-- Fresh default-sized texture cache over a fresh hierarchy. -/
def freshTC : TextureCache × MemoryHierarchy :=
  (TextureCache.create 256 0, MemoryHierarchy.create)

/-- Two reads of texture 42 at mip 0 then mip 1 (the claim C3 scenario). -/
def c3trace : List TCOp :=
  [TCOp.read 42 0 0 64 zeroBuf 0, TCOp.read 42 1 0 64 zeroBuf 0]

/-- Reads of (42,1), (42,0), then (42,1): the third call is a hit whose
predictor sees two accesses of texture 42 with last mip 1. -/
def c3traceAmended : List TCOp :=
  [TCOp.read 42 1 0 64 zeroBuf 0, TCOp.read 42 0 0 64 zeroBuf 0,
   TCOp.read 42 1 0 64 zeroBuf 0]

/-- A read of (1,0) installing a 1 MiB entry, then a read of the same key
with an oversize slice (offset 2 MiB), which falls through to the miss path
and overwrites the resident entry. -/
def c1trace : List TCOp :=
  [TCOp.read 1 0 0 64 zeroBuf 0, TCOp.read 1 0 (2 * 1024 * 1024) 64 zeroBuf 0]

/-- Reads of (1,0) then (0,256): both map to cache key 256. -/
def c6trace : List TCOp :=
  [TCOp.read 1 0 0 64 zeroBuf 0, TCOp.read 0 256 0 64 zeroBuf 0]

/-- Two demand reads of (42,0); a third identical read then hits. -/
def c10trace : List TCOp :=
  [TCOp.read 42 0 0 64 zeroBuf 0, TCOp.read 42 0 0 64 zeroBuf 0]

/-- Hierarchy trace for the claim C2 counterexample: write byte 1 at address
0, four conflicting writes that evict L1 set 0's line 0, then a write at
address 1 that reinstalls a fresh zero line covering address 0. All
intervening writes touch byte ranges disjoint from `[0, 1)`. -/
def c2trace : List MOp :=
  [MOp.write 0 (fun _ => 1) 1,
   MOp.write 8192 (fun _ => 2) 1, MOp.write 16384 (fun _ => 3) 1,
   MOp.write 24576 (fun _ => 4) 1, MOp.write 32768 (fun _ => 5) 1,
   MOp.write 1 (fun _ => 9) 1]

/-- Hierarchy trace for the claim C4 counterexample: a 16-byte allocation
shifts the next base to `0x10000010` (16-aligned, not 64-aligned); the
64-byte allocation there spans L1 lines `0x10000000` and `0x10000040`; the
write caches the second line. -/
def c4trace : List MOp :=
  [MOp.allocate 16, MOp.allocate 64, MOp.write 0x10000040 (fun _ => 7) 1]

/-- The monitor after recordings (true, false, true) for cache "c". -/
def pmC : PerformanceMonitor :=
  ((PerformanceMonitor.create.record_cache_access "c" true).record_cache_access
    "c" false).record_cache_access "c" true

/-- A cache state holding one demand entry for key (7,0), used as a witness
state. -/
def c10state : TextureCache × MemoryHierarchy :=
  TCrun sf0 freshTC [TCOp.read 7 0 0 64 zeroBuf 0]

/-! ## Theorems -/

/-- Claim C3 (counterexample): on a fresh cache with smart prefetching
enabled, after `read_texture(42,0,0,buf[64])` and `read_texture(42,1,0,buf[64])`
no entry for key (42,2) is resident: the predictor demands at least three
recorded accesses, and the source only invokes it on cache hits, so neither
(miss) read prefetches anything. -/
theorem c3_cex :
    (lookupA (TCrun sf0 freshTC c3trace).1.cache_entries (cacheKey 42 2)).isNone
      = true ∧
    (TCrun sf0 freshTC c3trace).1.cache_entries.length = 2 := by
  decide

/-- Claim C3 (amended): on a fresh cache with smart prefetching enabled,
after `read_texture(42,1,…)`, `read_texture(42,0,…)` and a third
`read_texture(42,1,…)` — the third being a hit with three recorded accesses
whose last two share texture 42 — an entry for key (42,2) is resident with
`is_prefetched = true`. -/
theorem c3_mip_walk :
    ((lookupA (TCrun sf0 freshTC c3traceAmended).1.cache_entries (cacheKey 42 2)).map
      (fun e => e.is_prefetched)) = some true ∧
    (TCrun sf0 freshTC c3traceAmended).1.metrics.cache_hits = 1 := by
  decide

/-- Claim C1 (counterexample): after a read of (1,0) installs a 1 MiB entry,
a second read of (1,0) with `offset + size` beyond the entry falls through to
the miss path; `allocate_entry` overwrites the resident entry under the same
key while still adding the fresh payload size, so the resident payload sum
(1 MiB) no longer equals `current_cache_size_bytes` (2 MiB). -/
theorem c1_cex :
    sumPayload (TCrun sf0 freshTC c1trace).1.cache_entries ≠
      (TCrun sf0 freshTC c1trace).1.current_cache_size_bytes ∧
    (TCrun sf0 freshTC c1trace).1.cache_entries.length = 1 := by
  decide

/-- Claim C6 (code evaluated at the failing input): the pairs (1,0) and
(0,256) are distinct yet map to the same cache key 256; the second read of
`c6trace` is served from the first pair's entry (a cache hit with a single
resident entry), so a mip level ≥ 256 is neither rejected nor saturated. -/
theorem c6_key_collision :
    cacheKey 1 0 = cacheKey 0 256 ∧ ((1, 0) : Nat × Nat) ≠ (0, 256) ∧
    (TCrun sf0 freshTC c6trace).1.metrics.cache_hits = 1 ∧
    (TCrun sf0 freshTC c6trace).1.cache_entries.length = 1 := by
  decide

/-- Claim C10 (counterexample): the third read of (42,0) hits a resident
entry with an in-bounds slice, yet the call changes the resident key set and
`current_cache_size_bytes`: with smart prefetching on, the predictor inserts
a prefetched entry for (42,1) during the hit. -/
theorem c10_cex :
    (lookupA (TCrun sf0 freshTC c10trace).1.cache_entries (cacheKey 42 0)).isSome
      = true ∧
    0 + 64 ≤ entryLen (TCrun sf0 freshTC c10trace).1 (cacheKey 42 0) ∧
    (TCstep sf0 (TCrun sf0 freshTC c10trace)
        (TCOp.read 42 0 0 64 zeroBuf 0)).1.current_cache_size_bytes ≠
      (TCrun sf0 freshTC c10trace).1.current_cache_size_bytes := by
  decide

/-- Claim C5 (counterexample): `allocate(0)` succeeds (the sentinel 0 is not
returned) without advancing the cursor, so two successive zero-size
allocations return the same nonzero address, refuting strict monotonicity. -/
theorem c5_cex :
    allocResults MemoryHierarchy.create [MOp.allocate 0, MOp.allocate 0] =
      [0x10000000, 0x10000000] ∧
    (0x10000000 : Nat) ≠ 0 ∧ ¬ (0x10000000 : Nat) < 0x10000000 := by
  decide

/-- Claim C2 (counterexample): after `write(0, d, 1)` with `d = [1]`, four
writes to other lines of L1 set 0 evict the line covering address 0, and a
write at address 1 (disjoint from `[0,1)`) reinstalls a fresh zero-filled
line for it; the subsequent `read(0, buf, 1)` is an L1 hit returning byte 0,
not `d = [1]` — the round-trip does not survive intervening unrelated
accesses. -/
theorem c2_cex :
    ((MemoryHierarchy.run MemoryHierarchy.create c2trace).read 0 zeroBuf 1).1
      = true ∧
    ((MemoryHierarchy.run MemoryHierarchy.create c2trace).read 0 zeroBuf 1).2.2 0
      ≠ 1 := by
  decide

/-- Claim C4 (counterexample): the base `0x10000010` of the 64-byte
allocation is 16-aligned but not 64-aligned, so the deallocation loop's
single 64-byte stride only invalidates the line containing `0x10000010`; the
L1 line at `0x10000040` — filled before the deallocation and covering
`[0x10000040, 0x10000050) ⊆ [base, base+64)` — survives, and a read there is
still served as an L1 hit. -/
theorem c4_cex :
    lookupA (MemoryHierarchy.run MemoryHierarchy.create c4trace).allocations
      0x10000010 = some 64 ∧
    (0x10000010 : Nat) ≤ 0x10000040 ∧ (0x10000040 : Nat) < 0x10000010 + 64 ∧
    (((MemoryHierarchy.run MemoryHierarchy.create c4trace).deallocate
        0x10000010).l1.findLineSpec 0x10000040).isSome = true ∧
    (((MemoryHierarchy.run MemoryHierarchy.create c4trace).deallocate
        0x10000010).l1.read 0x10000040 zeroBuf 1).1 = true := by
  decide

/-- Claim C9: after cache recordings (true, false, true) for cache "c" the
computed hit rate is exactly 2/3; the alert rule "c_hit_rate" fires at
threshold 0.7 and does not fire at threshold 0.6. -/
theorem c9_hit_rate_alerts :
    lookupA pmC.cacheHitRates "c" = some (2 / 3 : Rat) ∧
    (pmC.set_performance_threshold "c_hit_rate" (7 / 10)).check_performance_alerts
      = ["c_hit_rate"] ∧
    (pmC.set_performance_threshold "c_hit_rate" (3 / 5)).check_performance_alerts
      = [] := by
  refine ⟨?_, ?_, ?_⟩ <;>
    norm_num +decide [pmC, PerformanceMonitor.create,
      PerformanceMonitor.record_cache_access, bumpA, insertA, lookupA,
      PerformanceMonitor.cacheHitRates, PerformanceMonitor.set_performance_threshold,
      PerformanceMonitor.check_performance_alerts, alertFires, findSubIdx,
      isPrefixCL, String.data]

/-- Case analysis of `find_line`: either nothing matched and the cache is
unchanged, or it returned a line now stored at slot `i` of `a`'s set. -/
theorem touch_result (c : GPUCache) (a : Nat) :
    c.touch a = (none, c) ∨
    ∃ l i, c.touch a = (some (l, i), c.putLine a i l) := by
  unfold GPUCache.touch
  split
  · exact Or.inl rfl
  · split
    · exact Or.inl rfl
    · exact Or.inr ⟨_, _, rfl⟩

/-- `GPUCache::read` bumps the access counter once and exactly one of the
hit/miss counters. -/
theorem gpu_read_counters (c : GPUCache) (a : Nat) (buf : Buf) (size : Nat) :
    (c.read a buf size).2.1.access_count = c.access_count + 1 ∧
    (c.read a buf size).2.1.hit_count + (c.read a buf size).2.1.miss_count =
      c.hit_count + c.miss_count + 1 := by
  unfold GPUCache.read
  rcases touch_result { c with access_count := c.access_count + 1 } a with h | ⟨l, i, h⟩ <;>
    simp [h, GPUCache.putLine, GPUCache.withSet] <;> omega

/-- `GPUCache::write` bumps the access counter once and exactly one of the
hit/miss counters. -/
theorem gpu_write_counters (c : GPUCache) (a : Nat) (d : Buf) (size : Nat) :
    (c.write a d size).2.access_count = c.access_count + 1 ∧
    (c.write a d size).2.hit_count + (c.write a d size).2.miss_count =
      c.hit_count + c.miss_count + 1 := by
  unfold GPUCache.write
  rcases touch_result { c with access_count := c.access_count + 1 } a with h | ⟨l, i, h⟩ <;>
    simp [h, GPUCache.putLine, GPUCache.withSet] <;> omega

/-- `GPUCache::invalidate` leaves all counters unchanged. -/
theorem gpu_invalidate_counters (c : GPUCache) (a : Nat) :
    (c.invalidate a).hit_count = c.hit_count ∧
    (c.invalidate a).miss_count = c.miss_count ∧
    (c.invalidate a).access_count = c.access_count := by
  unfold GPUCache.invalidate
  rcases touch_result c a with h | ⟨l, i, h⟩ <;>
    simp [h, GPUCache.putLine, GPUCache.withSet]

/-- Claim C8: for every cache geometry and every operation sequence on a
fresh `GPUCache`, the counter equation `hits + misses = accesses` holds after
each operation (stated for the full run; the trace is universally
quantified, so every prefix is covered). -/
theorem c8_counters (cs ls assoc : Nat) (ops : List GOp) :
    (GPUCache.run (GPUCache.create cs ls assoc) ops).hit_count +
      (GPUCache.run (GPUCache.create cs ls assoc) ops).miss_count =
    (GPUCache.run (GPUCache.create cs ls assoc) ops).access_count := by
  have step : ∀ (c : GPUCache) (op : GOp),
      c.hit_count + c.miss_count = c.access_count →
      (c.step op).hit_count + (c.step op).miss_count = (c.step op).access_count := by
    intro c op h
    cases op with
    | read a size =>
      have := gpu_read_counters c a zeroBuf size
      simp only [GPUCache.step]
      omega
    | write a d size =>
      have := gpu_write_counters c a d size
      simp only [GPUCache.step]
      omega
    | invalidate a =>
      have := gpu_invalidate_counters c a
      simp only [GPUCache.step]
      omega
    | flush =>
      simpa [GPUCache.step, GPUCache.flush] using h
  have main : ∀ (ops : List GOp) (c : GPUCache),
      c.hit_count + c.miss_count = c.access_count →
      (GPUCache.run c ops).hit_count + (GPUCache.run c ops).miss_count =
        (GPUCache.run c ops).access_count := by
    intro ops
    induction ops with
    | nil => intro c h; simpa [GPUCache.run] using h
    | cons op rest ih =>
      intro c h
      have h1 := step c op h
      simpa [GPUCache.run, List.foldl_cons] using ih (c.step op) h1
  exact main ops (GPUCache.create cs ls assoc) rfl

/-- The cache-invalidation fold of `deallocate` touches only the two caches:
allocator cursor, allocation map and VRAM are untouched. -/
theorem dealloc_fold_frame (l : List Nat) (m : MemoryHierarchy) :
    (l.foldl (fun acc p =>
      { acc with l1 := acc.l1.invalidate p, l2 := acc.l2.invalidate p }) m).next_allocation_address
        = m.next_allocation_address ∧
    (l.foldl (fun acc p =>
      { acc with l1 := acc.l1.invalidate p, l2 := acc.l2.invalidate p }) m).allocations
        = m.allocations ∧
    (l.foldl (fun acc p =>
      { acc with l1 := acc.l1.invalidate p, l2 := acc.l2.invalidate p }) m).vram
        = m.vram := by
  induction l generalizing m with
  | nil => exact ⟨rfl, rfl, rfl⟩
  | cons p rest ih =>
    simpa using ih { m with l1 := m.l1.invalidate p, l2 := m.l2.invalidate p }

/-- `allocate` either fails with the 0 sentinel leaving the state unchanged,
or returns the current cursor and advances it by the rounded size. -/
theorem allocate_spec (m : MemoryHierarchy) (s : Nat) :
    ((m.allocate s).1 = 0 ∧ (m.allocate s).2 = m) ∨
    ((m.allocate s).1 = m.next_allocation_address ∧
     (m.allocate s).2.next_allocation_address =
       m.next_allocation_address + (s + 15) / 16 * 16) := by
  by_cases h : m.vramLen < m.next_allocation_address + (s + 15) / 16 * 16
  · exact Or.inl (by simp [MemoryHierarchy.allocate, h])
  · exact Or.inr (by simp [MemoryHierarchy.allocate, h])

/-- No hierarchy operation ever decreases the allocation cursor. -/
theorem step_next_mono (m : MemoryHierarchy) (op : MOp) :
    m.next_allocation_address ≤ (m.step op).next_allocation_address := by
  cases op with
  | read a size =>
    show m.next_allocation_address ≤ (m.read a zeroBuf size).2.1.next_allocation_address
    unfold MemoryHierarchy.read
    split
    · simp
    · dsimp only
      split
      · simp
      · split <;> simp
  | write a d size =>
    show m.next_allocation_address ≤ (m.write a d size).2.next_allocation_address
    unfold MemoryHierarchy.write
    dsimp only
    split <;> simp
  | allocate s =>
    show m.next_allocation_address ≤ (m.allocate s).2.next_allocation_address
    rcases allocate_spec m s with ⟨_, h⟩ | ⟨_, h⟩
    · rw [h]
    · rw [h]; omega
  | deallocate a =>
    show m.next_allocation_address ≤ (m.deallocate a).next_allocation_address
    unfold MemoryHierarchy.deallocate
    split
    · exact Nat.le_refl _
    · simpa using (dealloc_fold_frame _ m).1.ge
  | flushAll =>
    exact Nat.le_refl _

/-- Every nonzero address in the allocation log is at least the cursor value
at the start of the trace. -/
theorem allocResults_lb (ops : List MOp) (m : MemoryHierarchy) (r : Nat)
    (hr : r ∈ allocResults m ops) (h0 : r ≠ 0) :
    m.next_allocation_address ≤ r := by
  induction ops generalizing m with
  | nil => simp [allocResults] at hr
  | cons op rest ih =>
    have mono := step_next_mono m op
    cases op with
    | allocate s =>
      simp only [allocResults, List.mem_cons] at hr
      rcases hr with hr | hr
      · subst hr
        rcases allocate_spec m s with ⟨h, _⟩ | ⟨h, _⟩
        · exact absurd h h0
        · exact h.ge
      · exact le_trans mono (ih (m.step (MOp.allocate s)) hr)
    | read a size => exact le_trans mono (ih _ hr)
    | write a d size => exact le_trans mono (ih _ hr)
    | deallocate a => exact le_trans mono (ih _ hr)
    | flushAll => exact le_trans mono (ih _ hr)

/-- With every requested size positive, the nonzero allocation results of a
trace are strictly increasing (general start state). -/
theorem alloc_pairwise (ops : List MOp) (m : MemoryHierarchy)
    (h : ∀ op ∈ ops, allocPos op) :
    List.Pairwise (fun x y => x < y)
      ((allocResults m ops).filter (fun r => r ≠ 0)) := by
  induction ops generalizing m with
  | nil => simp [allocResults]
  | cons op rest ih =>
    have hrest : ∀ op' ∈ rest, allocPos op' :=
      fun op' hm => h op' (List.mem_cons_of_mem _ hm)
    cases op with
    | allocate s =>
      have hs : 1 ≤ s := h (MOp.allocate s) (List.mem_cons_self _ _)
      have hstep : MemoryHierarchy.step m (MOp.allocate s) = (m.allocate s).2 := rfl
      rcases allocate_spec m s with ⟨h0, hst⟩ | ⟨hres, hnext⟩
      · simpa [allocResults, h0, hstep, hst] using ih m hrest
      · by_cases hz : (m.allocate s).1 = 0
        · simpa [allocResults, hz, hstep] using ih (m.allocate s).2 hrest
        · have : (allocResults m (MOp.allocate s :: rest)).filter (fun r => r ≠ 0) =
              (m.allocate s).1 ::
              (allocResults (m.allocate s).2 rest).filter (fun r => r ≠ 0) := by
            simp [allocResults, hstep, hz, List.filter]
          rw [this, List.pairwise_cons]
          refine ⟨?_, ih (m.allocate s).2 hrest⟩
          intro y hy
          have hy' := List.mem_filter.1 hy
          have hylb := allocResults_lb rest (m.allocate s).2 y hy'.1
            (by simpa using hy'.2)
          rw [hres]
          have h16 : 16 ≤ (s + 15) / 16 * 16 := by omega
          omega
    | read a size =>
      simpa [allocResults] using ih (m.step (MOp.read a size)) hrest
    | write a d size =>
      simpa [allocResults] using ih (m.step (MOp.write a d size)) hrest
    | deallocate a =>
      simpa [allocResults] using ih (m.step (MOp.deallocate a)) hrest
    | flushAll =>
      simpa [allocResults] using ih (m.step MOp.flushAll) hrest

/-- Claim C5 (amended): on a fresh hierarchy, for every operation sequence in
which each requested allocation size is positive, the successful (nonzero)
allocation results are strictly increasing in order; zero-size requests are
the only exception (see the counterexample). -/
theorem c5_alloc_monotonic (ops : List MOp) (h : ∀ op ∈ ops, allocPos op) :
    List.Pairwise (fun x y => x < y)
      ((allocResults MemoryHierarchy.create ops).filter (fun r => r ≠ 0)) :=
  alloc_pairwise ops MemoryHierarchy.create h

/-- Witness for claim C5's theorem at a concrete trace. -/
theorem c5_alloc_monotonic_witness :
    (∀ op ∈ [MOp.allocate 16, MOp.allocate 32], allocPos op) ∧
    List.Pairwise (fun x y => x < y)
      ((allocResults MemoryHierarchy.create
        [MOp.allocate 16, MOp.allocate 32]).filter (fun r => r ≠ 0)) := by
  have hpos : ∀ op ∈ [MOp.allocate 16, MOp.allocate 32], allocPos op := by
    intro op hop
    simp only [List.mem_cons, List.not_mem_nil, or_false] at hop
    rcases hop with rfl | rfl <;> norm_num [allocPos]
  exact ⟨hpos, c5_alloc_monotonic _ hpos⟩

/-- `findIdxA` finds nothing iff no element passes the predicate. -/
theorem findIdxA_eq_none {α : Type} (p : α → Bool) (l : List α) :
    findIdxA p l = none ↔ ∀ x ∈ l, p x = false := by
  induction l with
  | nil => simp [findIdxA]
  | cons x rest ih =>
    by_cases hx : p x
    · simp [findIdxA, hx]
    · have hx' : p x = false := by simpa using hx
      simp [findIdxA, hx', Option.map_eq_none', ih, List.forall_mem_cons]

/-- The index returned by `findIdxA` is in range. -/
theorem findIdxA_lt_length {α : Type} (p : α → Bool) (l : List α) (i : Nat)
    (h : findIdxA p l = some i) : i < l.length := by
  induction l generalizing i with
  | nil => simp [findIdxA] at h
  | cons x rest ih =>
    by_cases hx : p x
    · simp only [findIdxA, if_pos hx, Option.some.injEq] at h
      simp [← h]
    · simp only [findIdxA, if_neg hx, Option.map_eq_some'] at h
      rcases h with ⟨j, hj, rfl⟩
      have := ih j hj
      simp only [List.length_cons]
      omega

/-- The element at a found index passes the predicate. -/
theorem findIdxA_found {α : Type} (p : α → Bool) (l : List α) (i : Nat)
    (d : α) (h : findIdxA p l = some i) : p (l.getD i d) = true := by
  induction l generalizing i with
  | nil => simp [findIdxA] at h
  | cons x rest ih =>
    by_cases hx : p x
    · simp only [findIdxA, if_pos hx, Option.some.injEq] at h
      simp [← h, List.getD, hx]
    · simp only [findIdxA, if_neg hx, Option.map_eq_some'] at h
      rcases h with ⟨j, hj, rfl⟩
      simpa [List.getD] using ih j hj

/-- Overwriting the found slot with another passing element keeps it the
first find. -/
theorem findIdxA_set_self {α : Type} (p : α → Bool) (l : List α) (i : Nat)
    (x : α) (h : findIdxA p l = some i) (hx : p x = true) :
    findIdxA p (l.set i x) = some i := by
  induction l generalizing i with
  | nil => simp [findIdxA] at h
  | cons y rest ih =>
    by_cases hy : p y
    · simp only [findIdxA, if_pos hy, Option.some.injEq] at h
      simp [← h, findIdxA, hx]
    · simp only [findIdxA, if_neg hy, Option.map_eq_some'] at h
      rcases h with ⟨j, hj, rfl⟩
      simp [findIdxA, hy, List.set, ih j hj]

/-- Writing a passing element into any slot of an all-failing list makes it
the first (and only) find. -/
theorem findIdxA_set_of_none {α : Type} (p : α → Bool) (l : List α) (i : Nat)
    (x : α) (h : findIdxA p l = none) (hi : i < l.length) (hx : p x = true) :
    findIdxA p (l.set i x) = some i := by
  induction l generalizing i with
  | nil => simp at hi
  | cons y rest ih =>
    have hall := (findIdxA_eq_none p (y :: rest)).1 h
    have hy : p y = false := hall y (List.mem_cons_self _ _)
    have hrest : findIdxA p rest = none :=
      (findIdxA_eq_none p rest).2 (fun z hz => hall z (List.mem_cons_of_mem _ hz))
    cases i with
    | zero => simp [findIdxA, List.set, hx]
    | succ j =>
      have hj : j < rest.length := by simpa using hi
      simp [findIdxA, List.set, hy, ih j hrest hj]

/-- The LRU scan of `allocate_line` returns an in-range index. -/
theorem minElemIdxAux_lt (lt : Option CacheLine → Option CacheLine → Bool)
    (rest : List (Option CacheLine)) (best : Option CacheLine) (bestI i L : Nat)
    (hb : bestI < L) (hi : i + rest.length ≤ L) :
    minElemIdxAux lt best bestI rest i < L := by
  induction rest generalizing best bestI i with
  | nil => simpa [minElemIdxAux] using hb
  | cons x r ih =>
    simp only [minElemIdxAux]
    by_cases hlt : lt x best
    · simp only [if_pos hlt]
      exact ih x i (i + 1) (by simp at hi; omega) (by simp at hi; omega)
    · simp only [if_neg hlt]
      exact ih best bestI (i + 1) hb (by simp at hi; omega)

/-- The victim slot of `allocate_line` is in range. -/
theorem allocIdx_lt (c : GPUCache) (a : Nat)
    (hne : c.sets (c.setIdx a) ≠ []) :
    c.allocIdx a < (c.sets (c.setIdx a)).length := by
  unfold GPUCache.allocIdx
  dsimp only
  cases h : findIdxA slotFree (c.sets (c.setIdx a)) with
  | some i => exact findIdxA_lt_length _ _ _ h
  | none =>
    cases hset : c.sets (c.setIdx a) with
    | nil => exact absurd hset hne
    | cons x rest =>
      exact minElemIdxAux_lt lineLt rest x 0 1 _ (by simp) (by simp only [List.length_cons]; omega)

/-- Setting a slot at an in-range index is what `getD` then reads back. -/
theorem getD_set_self {α : Type} (l : List α) (i : Nat) (x d : α)
    (h : i < l.length) : (l.set i x).getD i d = x := by
  induction l generalizing i with
  | nil => simp at h
  | cons y rest ih =>
    cases i with
    | zero => simp [List.set, List.getD]
    | succ j =>
      have hj : j < rest.length := by simpa using h
      simpa [List.set, List.getD] using ih j hj

theorem sameFrame_refl (c : GPUCache) : sameFrame c c :=
  ⟨rfl, rfl, rfl, fun _ => rfl⟩

theorem sameFrame_trans {c c' c'' : GPUCache} (h : sameFrame c c')
    (h' : sameFrame c' c'') : sameFrame c c'' :=
  ⟨h'.1.trans h.1, h'.2.1.trans h.2.1, h'.2.2.1.trans h.2.2.1,
   fun s => (h'.2.2.2 s).trans (h.2.2.2 s)⟩

/-- `putLine` only rewrites one slot: the geometry survives. -/
theorem putLine_frame (c : GPUCache) (a i : Nat) (l : CacheLine) :
    sameFrame c (c.putLine a i l) := by
  refine ⟨rfl, rfl, rfl, fun s => ?_⟩
  unfold GPUCache.putLine GPUCache.withSet
  dsimp only
  by_cases hs : s = c.setIdx a <;> simp [hs]

/-- `find_line` preserves the geometry. -/
theorem touch_frame (c : GPUCache) (a : Nat) : sameFrame c (c.touch a).2 := by
  rcases touch_result c a with h | ⟨l, i, h⟩ <;> rw [h]
  · exact sameFrame_refl c
  · exact putLine_frame c a i l

/-- `GPUCache::read` preserves the geometry. -/
theorem gpu_read_frame (c : GPUCache) (a : Nat) (buf : Buf) (size : Nat) :
    sameFrame c (c.read a buf size).2.1 := by
  unfold GPUCache.read
  rcases touch_result { c with access_count := c.access_count + 1 } a with h | ⟨l, i, h⟩ <;>
    simp only [h]
  · exact ⟨rfl, rfl, rfl, fun _ => rfl⟩
  · exact sameFrame_trans (⟨rfl, rfl, rfl, fun _ => rfl⟩ :
      sameFrame c { c with access_count := c.access_count + 1 })
      (putLine_frame { c with access_count := c.access_count + 1 } a i l)

/-- `GPUCache::write` preserves the geometry. -/
theorem gpu_write_frame (c : GPUCache) (a : Nat) (d : Buf) (size : Nat) :
    sameFrame c (c.write a d size).2 := by
  have base : sameFrame c { c with access_count := c.access_count + 1 } :=
    ⟨rfl, rfl, rfl, fun _ => rfl⟩
  unfold GPUCache.write
  rcases touch_result { c with access_count := c.access_count + 1 } a with h | ⟨l, i, h⟩ <;>
    simp only [h]
  · exact sameFrame_trans base
      (sameFrame_trans (⟨rfl, rfl, rfl, fun _ => rfl⟩) (putLine_frame _ a _ _))
  · exact sameFrame_trans base
      (sameFrame_trans (putLine_frame _ a i l)
        (sameFrame_trans (⟨rfl, rfl, rfl, fun _ => rfl⟩) (putLine_frame _ a i _)))

/-- `GPUCache::invalidate` preserves the geometry. -/
theorem gpu_invalidate_frame (c : GPUCache) (a : Nat) :
    sameFrame c (c.invalidate a) := by
  unfold GPUCache.invalidate
  rcases touch_result c a with h | ⟨l, i, h⟩ <;> simp only [h]
  · exact sameFrame_refl c
  · exact sameFrame_trans (putLine_frame c a i l) (putLine_frame _ a i _)

/-- `GPUCache::flush` preserves the geometry. -/
theorem gpu_flush_frame (c : GPUCache) : sameFrame c c.flush := by
  refine ⟨rfl, rfl, rfl, fun s => ?_⟩
  simp [GPUCache.flush]

/-- `putLine` rewrites exactly the chosen slot of the chosen set. -/
theorem putLine_sets_self (c : GPUCache) (a i : Nat) (l : CacheLine) :
    (c.putLine a i l).sets (c.setIdx a) = (c.sets (c.setIdx a)).set i (some l) := by
  unfold GPUCache.putLine GPUCache.withSet
  simp

/-- `find_line` on a found slot. -/
theorem touch_eq_found (c : GPUCache) (a i : Nat) (l0 : CacheLine)
    (hf : c.findIdx a = some i)
    (hx : (c.sets (c.setIdx a)).getD i none = some l0) :
    c.touch a = (some ({ l0 with access_time := c.access_count }, i),
      c.putLine a i { l0 with access_time := c.access_count }) := by
  unfold GPUCache.touch
  simp only [hf, hx]

/-- `find_line` on a miss. -/
theorem touch_eq_none (c : GPUCache) (a : Nat)
    (hf : c.findIdx a = none) : c.touch a = (none, c) := by
  unfold GPUCache.touch
  simp only [hf]

/-- After `putLine` of a matching line into a slot that was either the first
match or a slot of an all-miss set, `find_line` returns exactly that line. -/
theorem putLine_findLineSpec (c : GPUCache) (a i : Nat) (l : CacheLine) (t : Nat)
    (ht : c.alignDown a = t)
    (hi : i < (c.sets (c.setIdx a)).length)
    (hm : matchesLine t (some l) = true)
    (hf : findIdxA (matchesLine t) (c.sets (c.setIdx a)) = some i ∨
          findIdxA (matchesLine t) (c.sets (c.setIdx a)) = none) :
    (c.putLine a i l).findLineSpec a = some l := by
  subst ht
  have hsets := putLine_sets_self c a i l
  have hidx : (c.putLine a i l).findIdx a = some i := by
    show findIdxA (matchesLine ((c.putLine a i l).alignDown a))
        ((c.putLine a i l).sets ((c.putLine a i l).setIdx a)) = some i
    have e1 : (c.putLine a i l).alignDown a = c.alignDown a := rfl
    have e2 : (c.putLine a i l).setIdx a = c.setIdx a := rfl
    rw [e1, e2, hsets]
    rcases hf with hf | hf
    · exact findIdxA_set_self _ _ _ _ hf hm
    · exact findIdxA_set_of_none _ _ _ _ hf hi hm
  unfold GPUCache.findLineSpec
  rw [hidx]
  show ((c.putLine a i l).sets ((c.putLine a i l).setIdx a)).getD i none = some l
  rw [show (c.putLine a i l).setIdx a = c.setIdx a from rfl, hsets]
  exact getD_set_self _ _ _ _ hi

/-- `GPUCache::write` always leaves `find_line` returning a valid line for the
aligned address whose payload holds the written (in-line clipped) bytes. -/
theorem gpu_write_findLineSpec (c : GPUCache) (a : Nat) (d : Buf) (size : Nat)
    (hne : c.sets (c.setIdx a) ≠ []) :
    ∃ l, (c.write a d size).2.findLineSpec a = some l ∧
      l.valid = true ∧ l.address = c.alignDown a ∧
      ∀ j, j < min size (c.line_size - a % c.line_size) →
        l.data (a % c.line_size + j) = d j := by
  cases hf : findIdxA (matchesLine (c.alignDown a)) (c.sets (c.setIdx a)) with
  | some i =>
    have hi : i < (c.sets (c.setIdx a)).length := findIdxA_lt_length _ _ _ hf
    have hp := findIdxA_found _ (c.sets (c.setIdx a)) i none hf
    cases hx : (c.sets (c.setIdx a)).getD i none with
    | none => rw [hx] at hp; simp [matchesLine] at hp
    | some l0 =>
      rw [hx] at hp
      simp only [matchesLine, Bool.and_eq_true, decide_eq_true_eq] at hp
      obtain ⟨hv, ha⟩ := hp
      have hf1 : GPUCache.findIdx { c with access_count := c.access_count + 1 } a
          = some i := hf
      have hx1 : (({ c with access_count := c.access_count + 1 } : GPUCache).sets
          (GPUCache.setIdx { c with access_count := c.access_count + 1 } a)).getD i none
          = some l0 := hx
      have htouch := touch_eq_found { c with access_count := c.access_count + 1 }
        a i l0 hf1 hx1
      unfold GPUCache.write
      simp only [htouch]
      refine ⟨_, putLine_findLineSpec _ a i _ (c.alignDown a) rfl ?_ ?_ (Or.inl ?_),
        ?_, ?_, ?_⟩
      · have : i < (((
          { c with access_count := c.access_count + 1 } : GPUCache).putLine a i
            { l0 with access_time := c.access_count + 1 }).sets
            (GPUCache.setIdx { c with access_count := c.access_count + 1 } a)).length := by
          rw [putLine_sets_self]
          simpa using hi
        exact this
      · simp [matchesLine, hv, ha]
      · have : findIdxA (matchesLine (c.alignDown a))
            (((({ c with access_count := c.access_count + 1 } : GPUCache)).putLine a i
              { l0 with access_time := c.access_count + 1 }).sets
              (GPUCache.setIdx { c with access_count := c.access_count + 1 } a))
            = some i := by
          rw [putLine_sets_self]
          exact findIdxA_set_self _ _ _ _ hf (by simp [matchesLine, hv, ha])
        exact this
      · exact hv
      · exact ha
      · intro j hj
        show writeBytes { l0 with access_time := c.access_count + 1 }.data
            (a % c.line_size) d (min size (c.line_size - a % c.line_size))
            (a % c.line_size + j) = d j
        unfold writeBytes
        rw [if_pos ⟨Nat.le_add_right _ _, by omega⟩]
        congr 1
        omega
  | none =>
    have hf1 : GPUCache.findIdx { c with access_count := c.access_count + 1 } a
        = none := hf
    have htouch := touch_eq_none { c with access_count := c.access_count + 1 } a hf1
    unfold GPUCache.write
    simp only [htouch]
    refine ⟨_, putLine_findLineSpec _ a _ _ (c.alignDown a) rfl ?_ ?_ (Or.inr ?_),
      ?_, ?_, ?_⟩
    · exact allocIdx_lt _ a hne
    · simp [matchesLine, GPUCache.alignDown]
    · exact hf
    · rfl
    · rfl
    · intro j hj
      show writeBytes zeroBuf (a % c.line_size) d
          (min size (c.line_size - a % c.line_size)) (a % c.line_size + j) = d j
      unfold writeBytes
      rw [if_pos ⟨Nat.le_add_right _ _, by omega⟩]
      congr 1
      omega

/-- A `GPUCache::read` at an address `find_line` resolves is a hit returning
the line's bytes at the in-line offset. -/
theorem gpu_read_of_found (c : GPUCache) (a : Nat) (buf : Buf) (size : Nat)
    (l : CacheLine) (h : c.findLineSpec a = some l) :
    (c.read a buf size).1 = true ∧
    ∀ j, j < min size (c.line_size - a % c.line_size) →
      (c.read a buf size).2.2 j = l.data (a % c.line_size + j) := by
  unfold GPUCache.findLineSpec at h
  cases hf : c.findIdx a with
  | none => rw [hf] at h; simp at h
  | some i =>
    rw [hf] at h
    have hx : (c.sets (c.setIdx a)).getD i none = some l := h
    have hf1 : GPUCache.findIdx { c with access_count := c.access_count + 1 } a
        = some i := hf
    have hx1 : (({ c with access_count := c.access_count + 1 } : GPUCache).sets
        (GPUCache.setIdx { c with access_count := c.access_count + 1 } a)).getD i none
        = some l := hx
    have htouch := touch_eq_found { c with access_count := c.access_count + 1 }
      a i l hf1 hx1
    unfold GPUCache.read
    simp only [htouch]
    refine ⟨trivial, ?_⟩
    intro j hj
    show readBytes buf { l with access_time := c.access_count + 1 }.data
        (a % c.line_size) (min size (c.line_size - a % c.line_size)) j
        = l.data (a % c.line_size + j)
    unfold readBytes
    rw [if_pos hj]

theorem shape_of_frame {c c' : GPUCache} {ls assoc : Nat}
    (h : c.shape ls assoc) (hf : sameFrame c c') : c'.shape ls assoc := by
  obtain ⟨h1, h2, h3, h4⟩ := h
  obtain ⟨f1, f2, f3, f4⟩ := hf
  exact ⟨f1.trans h1, f2.trans h2, h3, fun s => (f4 s).trans (h4 s)⟩

theorem create_shape (cs ls assoc : Nat) (h : 0 < assoc) :
    (GPUCache.create cs ls assoc).shape ls assoc :=
  ⟨rfl, rfl, h, fun _ => List.length_replicate _ _⟩

/-- The L1 and L2 states after a hierarchy read keep their geometry. -/
theorem mh_read_frame (m : MemoryHierarchy) (a : Nat) (buf : Buf) (size : Nat) :
    sameFrame m.l1 (m.read a buf size).2.1.l1 ∧
    sameFrame m.l2 (m.read a buf size).2.1.l2 := by
  unfold MemoryHierarchy.read
  dsimp only
  split
  next l1a buf1 heq =>
    constructor
    · have := gpu_read_frame m.l1 a buf size
      rw [heq] at this
      exact this
    · exact sameFrame_refl _
  next l1a buf1 heq =>
    have h1 : sameFrame m.l1 l1a := by
      have := gpu_read_frame m.l1 a buf size
      rw [heq] at this
      exact this
    split
    next l2a buf2 heq2 =>
      constructor
      · exact sameFrame_trans h1 (gpu_write_frame l1a a buf2 size)
      · have := gpu_read_frame m.l2 a buf size
        rw [heq2] at this
        exact this
    next l2a buf2 heq2 =>
      have h2 : sameFrame m.l2 l2a := by
        have := gpu_read_frame m.l2 a buf size
        rw [heq2] at this
        exact this
      split
      · constructor
        · exact sameFrame_trans h1 (gpu_write_frame l1a a _ size)
        · exact sameFrame_trans h2 (gpu_write_frame l2a a _ size)
      · exact ⟨h1, h2⟩

/-- The L1 and L2 states after a hierarchy write are the plain cache writes,
and VRAM length is untouched. -/
theorem mh_write_caches (m : MemoryHierarchy) (a : Nat) (d : Buf) (size : Nat) :
    (m.write a d size).2.l1 = (m.l1.write a d size).2 ∧
    (m.write a d size).2.l2 = (m.l2.write a d size).2 ∧
    (m.write a d size).2.vramLen = m.vramLen := by
  unfold MemoryHierarchy.write
  dsimp only
  split <;> exact ⟨rfl, rfl, rfl⟩

/-- The deallocation fold preserves cache geometry. -/
theorem dealloc_fold_frame_caches (l : List Nat) (m : MemoryHierarchy) :
    sameFrame m.l1 (l.foldl (fun acc p =>
      { acc with l1 := acc.l1.invalidate p, l2 := acc.l2.invalidate p }) m).l1 ∧
    sameFrame m.l2 (l.foldl (fun acc p =>
      { acc with l1 := acc.l1.invalidate p, l2 := acc.l2.invalidate p }) m).l2 := by
  induction l generalizing m with
  | nil => exact ⟨sameFrame_refl _, sameFrame_refl _⟩
  | cons p rest ih =>
    have hstep := ih { m with l1 := m.l1.invalidate p, l2 := m.l2.invalidate p }
    exact ⟨sameFrame_trans (gpu_invalidate_frame m.l1 p) hstep.1,
           sameFrame_trans (gpu_invalidate_frame m.l2 p) hstep.2⟩

/-- Every hierarchy operation preserves the geometry of both caches. -/
theorem mh_step_frame (m : MemoryHierarchy) (op : MOp) :
    sameFrame m.l1 (m.step op).l1 ∧ sameFrame m.l2 (m.step op).l2 := by
  cases op with
  | read a size => exact mh_read_frame m a zeroBuf size
  | write a d size =>
    have h := mh_write_caches m a d size
    constructor
    · rw [show (MemoryHierarchy.step m (MOp.write a d size)).l1 = (m.write a d size).2.l1
        from rfl, h.1]
      exact gpu_write_frame m.l1 a d size
    · rw [show (MemoryHierarchy.step m (MOp.write a d size)).l2 = (m.write a d size).2.l2
        from rfl, h.2.1]
      exact gpu_write_frame m.l2 a d size
  | allocate s =>
    rcases allocate_spec m s with ⟨_, h⟩ | ⟨_, _⟩
    · rw [show MemoryHierarchy.step m (MOp.allocate s) = (m.allocate s).2 from rfl, h]
      exact ⟨sameFrame_refl _, sameFrame_refl _⟩
    · constructor <;>
      · unfold MemoryHierarchy.step MemoryHierarchy.allocate
        dsimp only
        split <;> exact sameFrame_refl _
  | deallocate a =>
    show sameFrame m.l1 (m.deallocate a).l1 ∧ sameFrame m.l2 (m.deallocate a).l2
    unfold MemoryHierarchy.deallocate
    split
    · exact ⟨sameFrame_refl _, sameFrame_refl _⟩
    · dsimp only
      exact dealloc_fold_frame_caches _ m
  | flushAll =>
    exact ⟨gpu_flush_frame m.l1, gpu_flush_frame m.l2⟩

/-- `MHframe` holds on the fresh hierarchy and along every trace. -/
theorem mh_run_frame (ops : List MOp) :
    MHframe (MemoryHierarchy.run MemoryHierarchy.create ops) := by
  have hstep : ∀ (m : MemoryHierarchy) (op : MOp), MHframe m → MHframe (m.step op) := by
    intro m op h
    obtain ⟨h1, h2⟩ := h
    obtain ⟨f1, f2⟩ := mh_step_frame m op
    exact ⟨shape_of_frame h1 f1, shape_of_frame h2 f2⟩
  have main : ∀ (ops : List MOp) (m : MemoryHierarchy), MHframe m →
      MHframe (MemoryHierarchy.run m ops) := by
    intro ops
    induction ops with
    | nil => intro m h; exact h
    | cons op rest ih =>
      intro m h
      exact ih (m.step op) (hstep m op h)
  exact main ops MemoryHierarchy.create
    ⟨create_shape _ _ _ (by norm_num), create_shape _ _ _ (by norm_num)⟩

/-- A shaped cache has nonempty sets. -/
theorem shape_sets_ne_nil {c : GPUCache} {ls assoc : Nat} (h : c.shape ls assoc)
    (s : Nat) : c.sets s ≠ [] := by
  intro hnil
  have hlen := h.2.2.2 s
  have hpos := h.2.2.1
  rw [hnil] at hlen
  simp at hlen
  omega

/-- Claim C2 (amended): on any state reachable from the fresh hierarchy —
i.e. regardless of PRIOR accesses — `write(a, d, size)` immediately followed
by `read(a, buf, size)` succeeds and returns exactly `d`, provided the range
`[a, a+size)` lies within a single L1 line (`a % 64 + size ≤ 64`) and within
VRAM. With accesses intervening between the write and the read, or with a
line-crossing range, the round-trip can fail (see the counterexample). -/
theorem c2_write_read_roundtrip (ops : List MOp) (a : Nat) (d : Buf) (size : Nat)
    (hline : a % 64 + size ≤ 64)
    (_hbound : a + size ≤ (MemoryHierarchy.run MemoryHierarchy.create ops).vramLen) :
    ((((MemoryHierarchy.run MemoryHierarchy.create ops).write a d size).2).read
        a zeroBuf size).1 = true ∧
    ∀ j, j < size →
      ((((MemoryHierarchy.run MemoryHierarchy.create ops).write a d size).2).read
          a zeroBuf size).2.2 j = d j := by
  have hfr := mh_run_frame ops
  have hM64 : (MemoryHierarchy.run MemoryHierarchy.create ops).l1.line_size = 64 :=
    hfr.1.1
  have hne := shape_sets_ne_nil hfr.1
    ((MemoryHierarchy.run MemoryHierarchy.create ops).l1.setIdx a)
  obtain ⟨l, hfind, hv, ha2, hdata⟩ :=
    gpu_write_findLineSpec (MemoryHierarchy.run MemoryHierarchy.create ops).l1
      a d size (hne)
  have hW := mh_write_caches (MemoryHierarchy.run MemoryHierarchy.create ops) a d size
  have hWfr : sameFrame (MemoryHierarchy.run MemoryHierarchy.create ops).l1
      ((MemoryHierarchy.run MemoryHierarchy.create ops).write a d size).2.l1 := by
    rw [hW.1]
    exact gpu_write_frame _ a d size
  have hW64 : ((MemoryHierarchy.run MemoryHierarchy.create ops).write a d size).2.l1.line_size
      = 64 := hWfr.1.trans hM64
  have hfindW : ((MemoryHierarchy.run MemoryHierarchy.create ops).write a d size).2.l1.findLineSpec
      a = some l := by
    rw [hW.1]
    exact hfind
  have hr := gpu_read_of_found
    ((MemoryHierarchy.run MemoryHierarchy.create ops).write a d size).2.l1
    a zeroBuf size l hfindW
  rcases hread : ((MemoryHierarchy.run MemoryHierarchy.create ops).write a d size).2.l1.read
      a zeroBuf size with ⟨b, l1a, rbuf⟩
  have hb : b = true := by rw [hread] at hr; exact hr.1
  subst hb
  constructor
  · show (MemoryHierarchy.read _ a zeroBuf size).1 = true
    unfold MemoryHierarchy.read
    simp only [hread]
  · intro j hj
    have hj' : j < min size
        (((MemoryHierarchy.run MemoryHierarchy.create ops).write a d size).2.l1.line_size
          - a % ((MemoryHierarchy.run MemoryHierarchy.create ops).write a d size).2.l1.line_size) := by
      rw [hW64]
      omega
    have hcopy := hr.2 j hj'
    rw [hread] at hcopy
    dsimp only at hcopy
    have hd := hdata j (by rw [hM64]; omega)
    show (MemoryHierarchy.read _ a zeroBuf size).2.2 j = d j
    unfold MemoryHierarchy.read
    simp only [hread]
    rw [hW64] at hcopy
    rw [hM64] at hd
    rw [hcopy, hd]

/-- Witness for claim C2's amended theorem at a concrete instance. -/
theorem c2_write_read_roundtrip_witness :
    ((100 : Nat) % 64 + 8 ≤ 64 ∧
      (100 : Nat) + 8 ≤ (MemoryHierarchy.run MemoryHierarchy.create []).vramLen) ∧
    (((((MemoryHierarchy.run MemoryHierarchy.create []).write 100 (fun _ => 3) 8).2).read
        100 zeroBuf 8).1 = true ∧
     ∀ j, j < 8 →
      ((((MemoryHierarchy.run MemoryHierarchy.create []).write 100 (fun _ => 3) 8).2).read
          100 zeroBuf 8).2.2 j = (fun _ => 3 : Buf) j) :=
  ⟨⟨by norm_num, by norm_num [MemoryHierarchy.run, MemoryHierarchy.create]⟩,
   c2_write_read_roundtrip [] 100 (fun _ => 3) 8 (by norm_num)
     (by norm_num [MemoryHierarchy.run, MemoryHierarchy.create])⟩

/-- Claim C7: on any state reachable from the fresh hierarchy, an
out-of-bounds `write(a, d, size)` (with `a + size` beyond VRAM) returns
failure and leaves VRAM unchanged, yet both L1 and L2 still capture the
write: afterwards `find_line` resolves `a` to a line holding the first
`min(size, line_size - offset)` bytes of `d` at `a`'s in-line offset — the
caches hold data with no backing store. -/
theorem c7_oob_write (ops : List MOp) (a : Nat) (d : Buf) (size : Nat)
    (h : (MemoryHierarchy.run MemoryHierarchy.create ops).vramLen < a + size) :
    ((MemoryHierarchy.run MemoryHierarchy.create ops).write a d size).1 = false ∧
    (∀ i, ((MemoryHierarchy.run MemoryHierarchy.create ops).write a d size).2.vram i
      = (MemoryHierarchy.run MemoryHierarchy.create ops).vram i) ∧
    lineCaptures ((MemoryHierarchy.run MemoryHierarchy.create ops).write a d size).2.l1
      a d size ∧
    lineCaptures ((MemoryHierarchy.run MemoryHierarchy.create ops).write a d size).2.l2
      a d size := by
  have hfr := mh_run_frame ops
  have hne1 := shape_sets_ne_nil hfr.1
    ((MemoryHierarchy.run MemoryHierarchy.create ops).l1.setIdx a)
  have hne2 := shape_sets_ne_nil hfr.2
    ((MemoryHierarchy.run MemoryHierarchy.create ops).l2.setIdx a)
  have hW := mh_write_caches (MemoryHierarchy.run MemoryHierarchy.create ops) a d size
  have hcap1 : lineCaptures
      ((MemoryHierarchy.run MemoryHierarchy.create ops).write a d size).2.l1 a d size := by
    obtain ⟨l, hfind, _, _, hdata⟩ :=
      gpu_write_findLineSpec (MemoryHierarchy.run MemoryHierarchy.create ops).l1
        a d size hne1
    have hls : ((MemoryHierarchy.run MemoryHierarchy.create ops).write a d size).2.l1.line_size
        = (MemoryHierarchy.run MemoryHierarchy.create ops).l1.line_size := by
      rw [hW.1]
      exact (gpu_write_frame _ a d size).1
    refine ⟨l, by rw [hW.1]; exact hfind, ?_⟩
    rw [hls]
    exact hdata
  have hcap2 : lineCaptures
      ((MemoryHierarchy.run MemoryHierarchy.create ops).write a d size).2.l2 a d size := by
    obtain ⟨l, hfind, _, _, hdata⟩ :=
      gpu_write_findLineSpec (MemoryHierarchy.run MemoryHierarchy.create ops).l2
        a d size hne2
    have hls : ((MemoryHierarchy.run MemoryHierarchy.create ops).write a d size).2.l2.line_size
        = (MemoryHierarchy.run MemoryHierarchy.create ops).l2.line_size := by
      rw [hW.2.1]
      exact (gpu_write_frame _ a d size).1
    refine ⟨l, by rw [hW.2.1]; exact hfind, ?_⟩
    rw [hls]
    exact hdata
  refine ⟨?_, ?_, hcap1, hcap2⟩
  · unfold MemoryHierarchy.write
    dsimp only
    rw [if_neg (by omega)]
  · unfold MemoryHierarchy.write
    dsimp only
    rw [if_neg (by omega)]
    intro i
    rfl

/-- Witness for claim C7's theorem at a concrete instance. -/
theorem c7_oob_write_witness :
    ((MemoryHierarchy.run MemoryHierarchy.create []).vramLen < 2 ^ 32 + 1) ∧
    (((MemoryHierarchy.run MemoryHierarchy.create []).write (2 ^ 32) (fun _ => 7) 1).1
        = false ∧
     (∀ i, ((MemoryHierarchy.run MemoryHierarchy.create []).write (2 ^ 32) (fun _ => 7) 1).2.vram i
        = (MemoryHierarchy.run MemoryHierarchy.create []).vram i) ∧
     lineCaptures ((MemoryHierarchy.run MemoryHierarchy.create []).write (2 ^ 32)
        (fun _ => 7) 1).2.l1 (2 ^ 32) (fun _ => 7) 1 ∧
     lineCaptures ((MemoryHierarchy.run MemoryHierarchy.create []).write (2 ^ 32)
        (fun _ => 7) 1).2.l2 (2 ^ 32) (fun _ => 7) 1) :=
  ⟨by norm_num [MemoryHierarchy.run, MemoryHierarchy.create],
   c7_oob_write [] (2 ^ 32) (fun _ => 7) 1
     (by norm_num [MemoryHierarchy.run, MemoryHierarchy.create])⟩

theorem lookupA_insertA_self {K V : Type} [DecidableEq K] (l : List (K × V))
    (k : K) (v : V) : lookupA (insertA l k v) k = some v := by
  induction l with
  | nil => simp [insertA, lookupA]
  | cons p rest ih =>
    obtain ⟨pk, pv⟩ := p
    by_cases hk : pk = k
    · simp [insertA, hk, lookupA]
    · simp [insertA, hk, lookupA, ih]

theorem lookupA_insertA_other {K V : Type} [DecidableEq K] (l : List (K × V))
    (k k' : K) (v : V) (h : k' ≠ k) :
    lookupA (insertA l k v) k' = lookupA l k' := by
  have h' : k ≠ k' := Ne.symm h
  induction l with
  | nil => simp [insertA, lookupA, h']
  | cons p rest ih =>
    obtain ⟨pk, pv⟩ := p
    by_cases hk : pk = k
    · subst hk
      simp [insertA, lookupA, h']
    · simp [insertA, hk, lookupA, ih]

theorem map_fst_insertA_present {K V : Type} [DecidableEq K] (l : List (K × V))
    (k : K) (v w : V) (h : lookupA l k = some w) :
    (insertA l k v).map Prod.fst = l.map Prod.fst := by
  induction l with
  | nil => simp [lookupA] at h
  | cons p rest ih =>
    obtain ⟨pk, pv⟩ := p
    by_cases hk : pk = k
    · simp [insertA, hk]
    · simp only [lookupA, if_neg hk] at h
      simp [insertA, hk, ih h]

/-- Claim C10 (amended): with smart prefetching disabled, a `read_texture`
that hits a resident key with an in-bounds slice succeeds and is a pure
metadata operation: the hierarchy, the resident key set, all other entries,
the hit entry's payload and `current_cache_size_bytes` are unchanged; only
the hit entry's `last_access_time`/`access_count`, the hit counters and the
bounded access history change. With smart prefetching enabled the predictor
can insert entries during a hit (see the counterexample). -/
theorem c10_hit_frame_effect (sf : ScoreFn) (tc : TextureCache)
    (m : MemoryHierarchy) (texture_id mip_level offset size : Nat) (buf : Buf)
    (now : Nat)
    (hsp : tc.smart_prefetching_enabled = false)
    (hsome : (lookupA tc.cache_entries (cacheKey texture_id mip_level)).isSome = true)
    (hbound : offset + size ≤ entryLen tc (cacheKey texture_id mip_level)) :
    (TextureCache.read_texture sf tc m texture_id mip_level offset size buf now).1 = true ∧
    (TextureCache.read_texture sf tc m texture_id mip_level offset size buf now).2.2.1 = m ∧
    (TextureCache.read_texture sf tc m texture_id mip_level offset size buf now).2.1.cache_entries.map
        Prod.fst = tc.cache_entries.map Prod.fst ∧
    (TextureCache.read_texture sf tc m texture_id mip_level offset size buf now).2.1.current_cache_size_bytes
        = tc.current_cache_size_bytes ∧
    (TextureCache.read_texture sf tc m texture_id mip_level offset size buf now).2.1.max_cache_size_bytes
        = tc.max_cache_size_bytes ∧
    (∀ k, k ≠ cacheKey texture_id mip_level →
      lookupA (TextureCache.read_texture sf tc m texture_id mip_level offset size buf now).2.1.cache_entries k
        = lookupA tc.cache_entries k) ∧
    lookupA (TextureCache.read_texture sf tc m texture_id mip_level offset size buf now).2.1.cache_entries
        (cacheKey texture_id mip_level) =
      (lookupA tc.cache_entries (cacheKey texture_id mip_level)).map
        (fun e => { e with last_access_time := now,
                           access_count := e.access_count + 1 }) ∧
    (TextureCache.read_texture sf tc m texture_id mip_level offset size buf now).2.1.metrics.cache_misses
        = tc.metrics.cache_misses ∧
    (TextureCache.read_texture sf tc m texture_id mip_level offset size buf now).2.1.metrics.cache_hits
        = tc.metrics.cache_hits + 1 ∧
    (TextureCache.read_texture sf tc m texture_id mip_level offset size buf now).2.1.metrics.bytes_transferred
        = tc.metrics.bytes_transferred ∧
    (TextureCache.read_texture sf tc m texture_id mip_level offset size buf now).2.1.recent_accesses
        = (if tc.max_pattern_history ≤ tc.recent_accesses.length then
            tc.recent_accesses.drop 1
          else tc.recent_accesses) ++ [⟨texture_id, mip_level, now⟩] := by
  cases hl : lookupA tc.cache_entries (cacheKey texture_id mip_level) with
  | none => rw [hl] at hsome; simp at hsome
  | some e =>
    have hbound' : offset + size ≤ e.dataLen := by
      unfold entryLen at hbound
      rw [hl] at hbound
      exact hbound
    unfold TextureCache.read_texture
    dsimp only
    rw [hl]
    dsimp only
    rw [if_pos hbound']
    simp only [hsp, Bool.false_eq_true, if_false]
    refine ⟨trivial, trivial, ?_, trivial, trivial, ?_, ?_, trivial, trivial, trivial, trivial⟩
    · exact map_fst_insertA_present _ _ _ _ hl
    · intro k hk
      exact lookupA_insertA_other _ _ _ _ hk
    · rw [lookupA_insertA_self]
      rfl

/-- Witness for claim C10's amended theorem at a concrete state. -/
theorem c10_hit_frame_effect_witness :
    ((c10state.1.enable_smart_prefetching false).smart_prefetching_enabled = false ∧
     (lookupA (c10state.1.enable_smart_prefetching false).cache_entries
        (cacheKey 7 0)).isSome = true ∧
     0 + 64 ≤ entryLen (c10state.1.enable_smart_prefetching false) (cacheKey 7 0)) ∧
    (TextureCache.read_texture sf0 (c10state.1.enable_smart_prefetching false)
        c10state.2 7 0 0 64 zeroBuf 5).1 = true ∧
    (TextureCache.read_texture sf0 (c10state.1.enable_smart_prefetching false)
        c10state.2 7 0 0 64 zeroBuf 5).2.2.1 = c10state.2 ∧
    (TextureCache.read_texture sf0 (c10state.1.enable_smart_prefetching false)
        c10state.2 7 0 0 64 zeroBuf 5).2.1.current_cache_size_bytes =
      (c10state.1.enable_smart_prefetching false).current_cache_size_bytes :=
  ⟨⟨rfl, by decide, by decide⟩,
   (c10_hit_frame_effect sf0 (c10state.1.enable_smart_prefetching false)
     c10state.2 7 0 0 64 zeroBuf 5 rfl (by decide) (by decide)).1,
   (c10_hit_frame_effect sf0 (c10state.1.enable_smart_prefetching false)
     c10state.2 7 0 0 64 zeroBuf 5 rfl (by decide) (by decide)).2.1,
   (c10_hit_frame_effect sf0 (c10state.1.enable_smart_prefetching false)
     c10state.2 7 0 0 64 zeroBuf 5 rfl (by decide) (by decide)).2.2.2.1⟩

theorem cacheKey_lt (texture_id mip_level : Nat) :
    cacheKey texture_id mip_level < 2 ^ 64 := by
  unfold cacheKey
  exact Nat.or_lt_two_pow (Nat.mod_lt _ (by positivity))
    (lt_of_lt_of_le (Nat.mod_lt _ (by positivity)) (by norm_num))

/-- Unpacking the key as `prefetch_texture` does (`key >> 8`, `key & 0xFF`)
and re-packing it yields the same key. -/
theorem cacheKey_recon (k : Nat) (hk : k < 2 ^ 64) :
    cacheKey (k / 256) (k % 256) = k := by
  unfold cacheKey
  have h1 : k / 256 * 256 % 2 ^ 64 = k / 256 * 256 := Nat.mod_eq_of_lt (by omega)
  have h2 : k % 256 % 2 ^ 32 = k % 256 := Nat.mod_eq_of_lt (by omega)
  rw [h1, h2]
  have h3 : k % 256 < 2 ^ 8 := by omega
  have h4 := Nat.mul_add_lt_is_or h3 (k / 256)
  have h5 : k / 256 * 256 = 2 ^ 8 * (k / 256) := by ring
  rw [h5]
  show 2 ^ 8 * (k / 256) ||| k % 256 = k
  rw [← h4]
  omega

theorem lookupA_eq_none_iff {K V : Type} [DecidableEq K] (l : List (K × V))
    (k : K) : lookupA l k = none ↔ k ∉ l.map Prod.fst := by
  induction l with
  | nil => simp [lookupA]
  | cons p rest ih =>
    obtain ⟨pk, pv⟩ := p
    by_cases hk : pk = k
    · subst hk
      simp [lookupA]
    · have hk' : ¬ k = pk := fun hh => hk hh.symm
      simp [lookupA, hk, ih, hk']

theorem eraseA_sublist {K V : Type} [DecidableEq K] (l : List (K × V)) (k : K) :
    (eraseA l k).Sublist l := by
  induction l with
  | nil => simp [eraseA]
  | cons p rest ih =>
    obtain ⟨pk, pv⟩ := p
    by_cases hk : pk = k
    · simp only [eraseA, if_pos hk]
      exact List.sublist_cons_self _ _
    · simp only [eraseA, if_neg hk]
      exact List.Sublist.cons₂ _ ih

theorem sumPayload_insertA_absent (l : List (Nat × TCEntry)) (k : Nat)
    (v : TCEntry) (h : lookupA l k = none) :
    sumPayload (insertA l k v) = sumPayload l + v.dataLen := by
  induction l with
  | nil => simp [insertA, sumPayload]
  | cons p rest ih =>
    obtain ⟨pk, pv⟩ := p
    simp only [lookupA] at h
    by_cases hk : pk = k
    · rw [if_pos hk] at h
      exact absurd h (by simp)
    · rw [if_neg hk] at h
      simp only [insertA, if_neg hk, sumPayload, List.map_cons, List.sum_cons] at *
      rw [ih h]
      omega

theorem sumPayload_insertA_present (l : List (Nat × TCEntry)) (k : Nat)
    (v w : TCEntry) (h : lookupA l k = some w) (hlen : v.dataLen = w.dataLen) :
    sumPayload (insertA l k v) = sumPayload l := by
  induction l with
  | nil => simp [lookupA] at h
  | cons p rest ih =>
    obtain ⟨pk, pv⟩ := p
    simp only [lookupA] at h
    by_cases hk : pk = k
    · rw [if_pos hk] at h
      have : pv = w := by simpa using h
      subst this
      simp only [insertA, if_pos hk, sumPayload, List.map_cons, List.sum_cons]
      omega
    · rw [if_neg hk] at h
      simp only [insertA, if_neg hk, sumPayload, List.map_cons, List.sum_cons]
      have := ih h
      unfold sumPayload at this
      omega

theorem sumPayload_eraseA (l : List (Nat × TCEntry)) (k : Nat) (v : TCEntry)
    (h : lookupA l k = some v) :
    sumPayload (eraseA l k) + v.dataLen = sumPayload l := by
  induction l with
  | nil => simp [lookupA] at h
  | cons p rest ih =>
    obtain ⟨pk, pv⟩ := p
    simp only [lookupA] at h
    by_cases hk : pk = k
    · rw [if_pos hk] at h
      have : pv = v := by simpa using h
      subst this
      simp only [eraseA, if_pos hk, sumPayload, List.map_cons, List.sum_cons]
      omega
    · rw [if_neg hk] at h
      simp only [eraseA, if_neg hk, sumPayload, List.map_cons, List.sum_cons]
      have := ih h
      unfold sumPayload at this
      omega

theorem length_eraseA_present {K V : Type} [DecidableEq K]
    (l : List (K × V)) (k : K) (v : V) (h : lookupA l k = some v) :
    (eraseA l k).length + 1 = l.length := by
  induction l with
  | nil => simp [lookupA] at h
  | cons p rest ih =>
    obtain ⟨pk, pv⟩ := p
    simp only [lookupA] at h
    by_cases hk : pk = k
    · simp [eraseA, hk]
    · rw [if_neg hk] at h
      simp only [eraseA, if_neg hk, List.length_cons]
      rw [← ih h]

theorem map_fst_insertA_absent {K V : Type} [DecidableEq K]
    (l : List (K × V)) (k : K) (v : V) (h : lookupA l k = none) :
    (insertA l k v).map Prod.fst = l.map Prod.fst ++ [k] := by
  induction l with
  | nil => simp [insertA]
  | cons p rest ih =>
    obtain ⟨pk, pv⟩ := p
    simp only [lookupA] at h
    by_cases hk : pk = k
    · rw [if_pos hk] at h
      exact absurd h (by simp)
    · rw [if_neg hk] at h
      simp [insertA, hk, ih h]

theorem mapA_insertA {K V : Type} [DecidableEq K] (f : V → V)
    (l : List (K × V)) (k : K) (v : V) :
    mapA f (insertA l k v) k = insertA l k (f v) := by
  induction l with
  | nil => simp [insertA, mapA]
  | cons p rest ih =>
    obtain ⟨pk, pv⟩ := p
    by_cases hk : pk = k
    · simp [insertA, mapA, hk]
    · simp [insertA, mapA, hk, ih]

theorem minEntryAux_mem (score : TCEntry → Rat) (b : Nat × TCEntry)
    (l : List (Nat × TCEntry)) : minEntryAux score b l = b ∨ minEntryAux score b l ∈ l := by
  induction l generalizing b with
  | nil => simp [minEntryAux]
  | cons x rest ih =>
    simp only [minEntryAux]
    by_cases hlt : score x.2 < score b.2
    · rw [if_pos hlt]
      rcases ih x with h | h
      · exact Or.inr (by simp [h])
      · exact Or.inr (List.mem_cons_of_mem _ h)
    · rw [if_neg hlt]
      rcases ih b with h | h
      · exact Or.inl h
      · exact Or.inr (List.mem_cons_of_mem _ h)

theorem lookupA_of_mem_nodup {K V : Type} [DecidableEq K] (l : List (K × V))
    (k : K) (v : V) (hm : (k, v) ∈ l) (hnd : (l.map Prod.fst).Nodup) :
    lookupA l k = some v := by
  induction l with
  | nil => simp at hm
  | cons p rest ih =>
    obtain ⟨pk, pv⟩ := p
    simp only [List.map_cons, List.nodup_cons] at hnd
    rcases List.mem_cons.1 hm with h | h
    · injection h with h1 h2
      subst h1
      subst h2
      simp [lookupA]
    · by_cases hk : pk = k
      · subst hk
        exact absurd (List.mem_map.2 ⟨(pk, v), h, rfl⟩) hnd.1
      · simp only [lookupA, if_neg hk]
        exact ih h hnd.2

/-- `evict_least_valuable_entry` on a nonempty map: the victim is resident,
the invariant survives, one entry disappears, absent keys stay absent, and
the frame fields are untouched. -/
theorem evictOne_spec (sf : ScoreFn) (now : Nat) (tc : TextureCache)
    (m : MemoryHierarchy) (hwf : TCWF tc) (hne : tc.cache_entries ≠ []) :
    TCWF (TextureCache.evictOne sf now tc m).1 ∧
    (TextureCache.evictOne sf now tc m).1.max_cache_size_bytes
      = tc.max_cache_size_bytes ∧
    (TextureCache.evictOne sf now tc m).1.cache_entries.length + 1
      = tc.cache_entries.length ∧
    ∀ k, lookupA tc.cache_entries k = none →
      lookupA (TextureCache.evictOne sf now tc m).1.cache_entries k = none := by
  obtain ⟨hsum, hle, hnd, hq⟩ := hwf
  cases hE : tc.cache_entries with
  | nil => exact absurd hE hne
  | cons e rest =>
    have hEq : TextureCache.evictOne sf now tc m =
        ({ tc with
            current_cache_size_bytes :=
              tc.current_cache_size_bytes - (minEntryAux (sf now) e rest).2.dataLen,
            cache_entries := eraseA (e :: rest) (minEntryAux (sf now) e rest).1 },
         m.deallocate (minEntryAux (sf now) e rest).2.address) := by
      unfold TextureCache.evictOne
      rw [hE]
    have hmem : (minEntryAux (sf now) e rest) ∈ e :: rest := by
      rcases minEntryAux_mem (sf now) e rest with h | h
      · rw [h]; exact List.mem_cons_self _ _
      · exact List.mem_cons_of_mem _ h
    have hlk : lookupA (e :: rest) (minEntryAux (sf now) e rest).1
        = some (minEntryAux (sf now) e rest).2 := by
      rw [← hE] at hmem ⊢
      exact lookupA_of_mem_nodup _ _ _ (by simpa using hmem) hnd
    have hser := sumPayload_eraseA (e :: rest) _ _ hlk
    have hsub : (eraseA (e :: rest) (minEntryAux (sf now) e rest).1).Sublist
        (e :: rest) := eraseA_sublist _ _
    rw [hEq]
    unfold TCWF
    dsimp only
    refine ⟨⟨?_, ?_, ?_, hq⟩, rfl, ?_, ?_⟩
    · rw [hE] at hsum
      omega
    · have : tc.current_cache_size_bytes - (minEntryAux (sf now) e rest).2.dataLen
          ≤ tc.current_cache_size_bytes := Nat.sub_le _ _
      omega
    · rw [hE] at hnd
      exact List.Nodup.sublist (hsub.map Prod.fst) hnd
    · simpa using length_eraseA_present _ _ _ hlk
    · intro k hk
      rw [lookupA_eq_none_iff] at hk ⊢
      intro hmem'
      exact hk ((hsub.map Prod.fst).subset hmem')

/-- The eviction `while` loop with enough fuel: the invariant survives, the
capacity is untouched, the result leaves room for `size` whenever a single
`size` fits at all, and absent keys stay absent. -/
theorem evictLoop_spec (sf : ScoreFn) (now size : Nat) :
    ∀ (fuel : Nat) (tc : TextureCache) (m : MemoryHierarchy), TCWF tc →
    tc.cache_entries.length ≤ fuel →
    TCWF (TextureCache.evictLoop sf now size fuel tc m).1 ∧
    (TextureCache.evictLoop sf now size fuel tc m).1.max_cache_size_bytes
      = tc.max_cache_size_bytes ∧
    (size ≤ tc.max_cache_size_bytes →
      (TextureCache.evictLoop sf now size fuel tc m).1.current_cache_size_bytes + size
        ≤ tc.max_cache_size_bytes) ∧
    ∀ k, lookupA tc.cache_entries k = none →
      lookupA (TextureCache.evictLoop sf now size fuel tc m).1.cache_entries k = none := by
  intro fuel
  induction fuel with
  | zero =>
    intro tc m hwf hfuel
    have hnil : tc.cache_entries = [] := List.eq_nil_of_length_eq_zero (by omega)
    have hcur : tc.current_cache_size_bytes = 0 := by
      have := hwf.1
      rw [hnil] at this
      simpa [sumPayload] using this.symm
    refine ⟨hwf, rfl, ?_, fun k hk => hk⟩
    intro hs
    show tc.current_cache_size_bytes + size ≤ tc.max_cache_size_bytes
    omega
  | succ fuel ih =>
    intro tc m hwf hfuel
    by_cases hg : tc.max_cache_size_bytes <
        tc.current_cache_size_bytes + size ∧ tc.cache_entries.isEmpty = false
    · have hne : tc.cache_entries ≠ [] := by
        intro hnil
        rw [hnil] at hg
        simp at hg
      obtain ⟨hwf1, hmax1, hlen1, hlk1⟩ := evictOne_spec sf now tc m hwf hne
      have hloop : TextureCache.evictLoop sf now size (fuel + 1) tc m =
          TextureCache.evictLoop sf now size fuel
            (TextureCache.evictOne sf now tc m).1
            (TextureCache.evictOne sf now tc m).2 := by
        conv_lhs => rw [TextureCache.evictLoop]
        rw [if_pos hg]
      obtain ⟨ha, hb, hc, hd⟩ := ih (TextureCache.evictOne sf now tc m).1
        (TextureCache.evictOne sf now tc m).2 hwf1 (by omega)
      rw [hloop]
      exact ⟨ha, hb.trans hmax1, fun hs => by
        have h2 := hc (by rw [hmax1]; exact hs)
        rw [hmax1] at h2
        exact h2, fun k hk => hd k (hlk1 k hk)⟩
    · have hloop : TextureCache.evictLoop sf now size (fuel + 1) tc m = (tc, m) := by
        conv_lhs => rw [TextureCache.evictLoop]
        rw [if_neg hg]
      rw [hloop]
      refine ⟨hwf, rfl, ?_, fun k hk => hk⟩
      intro hs
      show tc.current_cache_size_bytes + size ≤ tc.max_cache_size_bytes
      rcases Decidable.not_and_iff_or_not.mp hg with h | h
      · omega
      · have hb : tc.cache_entries.isEmpty = true := by
          cases hh : tc.cache_entries.isEmpty
          · exact absurd hh h
          · rfl
        have hnil : tc.cache_entries = [] := by simpa using hb
        have hcur : tc.current_cache_size_bytes = 0 := by
          have h3 := hwf.1
          rw [hnil] at h3
          simpa [sumPayload] using h3.symm
        omega

/-- `TCWF` only mentions four fields. -/
theorem TCWF_congr_frame {tc tc' : TextureCache} (h : TCWF tc)
    (he : tc'.cache_entries = tc.cache_entries)
    (hc : tc'.current_cache_size_bytes = tc.current_cache_size_bytes)
    (hm : tc'.max_cache_size_bytes = tc.max_cache_size_bytes)
    (hq : tc'.prefetch_queue = tc.prefetch_queue) : TCWF tc' := by
  unfold TCWF at h ⊢
  rw [he, hc, hm, hq]
  exact h

/-- `allocate_entry` followed by the caller's in-place initialisation of the
freshly inserted entry preserves the invariant, provided the key is absent
and the payload fits the capacity at all. -/
theorem install_entry_spec (sf : ScoreFn) (now : Nat) (tc : TextureCache)
    (m : MemoryHierarchy) (texture_id mip_level addr size : Nat)
    (f : TCEntry → TCEntry) (hwf : TCWF tc)
    (habs : lookupA tc.cache_entries (cacheKey texture_id mip_level) = none)
    (hsize : size ≤ tc.max_cache_size_bytes)
    (hf : ∀ e, (f e).dataLen = e.dataLen ∨ (f e).dataLen = size) :
    TCWF (TextureCache.updateEntry
      (TextureCache.allocate_entry sf now tc m texture_id mip_level addr size).1
      (cacheKey texture_id mip_level) f) ∧
    (TextureCache.updateEntry
      (TextureCache.allocate_entry sf now tc m texture_id mip_level addr size).1
      (cacheKey texture_id mip_level) f).max_cache_size_bytes
        = tc.max_cache_size_bytes := by
  obtain ⟨hLwf, hLmax, hLroom, hLlk⟩ :=
    evictLoop_spec sf now size tc.cache_entries.length tc m hwf (Nat.le_refl _)
  have habsL : lookupA
      (TextureCache.evictLoop sf now size tc.cache_entries.length tc m).1.cache_entries
      (cacheKey texture_id mip_level) = none := hLlk _ habs
  have hentries : (TextureCache.updateEntry
      (TextureCache.allocate_entry sf now tc m texture_id mip_level addr size).1
      (cacheKey texture_id mip_level) f).cache_entries =
      insertA
        (TextureCache.evictLoop sf now size tc.cache_entries.length tc m).1.cache_entries
        (cacheKey texture_id mip_level)
        (f ⟨texture_id, mip_level, addr, size, zeroBuf, 0, 0, false⟩) := by
    show mapA f (insertA
        (TextureCache.evictLoop sf now size tc.cache_entries.length tc m).1.cache_entries
        (cacheKey texture_id mip_level)
        ⟨texture_id, mip_level, addr, size, zeroBuf, 0, 0, false⟩)
        (cacheKey texture_id mip_level) = _
    rw [mapA_insertA]
  have hflen : (f (⟨texture_id, mip_level, addr, size, zeroBuf, 0, 0, false⟩ : TCEntry)).dataLen
      = size := by
    rcases hf ⟨texture_id, mip_level, addr, size, zeroBuf, 0, 0, false⟩ with h | h
    · exact h
    · exact h
  obtain ⟨hLsum, hLle, hLnd, hLq⟩ := hLwf
  constructor
  · refine ⟨?_, ?_, ?_, ?_⟩
    · rw [hentries, sumPayload_insertA_absent _ _ _ habsL, hflen]
      show _ = (TextureCache.evictLoop sf now size
          tc.cache_entries.length tc m).1.current_cache_size_bytes + size
      rw [hLsum]
    · show (TextureCache.evictLoop sf now size
          tc.cache_entries.length tc m).1.current_cache_size_bytes + size
        ≤ (TextureCache.evictLoop sf now size
          tc.cache_entries.length tc m).1.max_cache_size_bytes
      rw [hLmax]
      exact hLroom hsize
    · rw [hentries, map_fst_insertA_absent _ _ _ habsL]
      rw [List.nodup_append]
      refine ⟨hLnd, List.nodup_singleton _, ?_⟩
      intro x hx hx2
      simp only [List.mem_singleton] at hx2
      subst hx2
      exact (lookupA_eq_none_iff _ _).1 habsL hx
    · exact hLq
  · exact hLmax

/-- `prefetch_texture` preserves the invariant whenever a 1 MiB entry can fit
the capacity at all. -/
theorem prefetch_wf (sf : ScoreFn) (tc : TextureCache) (m : MemoryHierarchy)
    (texture_id mip_level now : Nat) (hwf : TCWF tc)
    (hsize : 1024 * 1024 ≤ tc.max_cache_size_bytes) :
    TCWF (TextureCache.prefetch_texture sf tc m texture_id mip_level now).1 ∧
    (TextureCache.prefetch_texture sf tc m texture_id mip_level now).1.max_cache_size_bytes
      = tc.max_cache_size_bytes := by
  have hq := hwf.2.2.2
  unfold TextureCache.prefetch_texture
  dsimp only
  by_cases hres : (lookupA tc.cache_entries (cacheKey texture_id mip_level)).isSome = true
  · rw [if_pos hres]
    exact ⟨hwf, rfl⟩
  · rw [if_neg hres]
    have habs : lookupA tc.cache_entries (cacheKey texture_id mip_level) = none := by
      cases h2 : lookupA tc.cache_entries (cacheKey texture_id mip_level) with
      | none => rfl
      | some v => rw [h2] at hres; simp at hres
    rw [hq]
    simp only [List.nil_append]
    have hwf1 : TCWF { tc with prefetch_queue := ([] : List Nat) } :=
      TCWF_congr_frame hwf rfl rfl rfl hq.symm
    by_cases h0 : (m.allocate (1024 * 1024)).1 = 0
    · rw [if_pos h0]
      exact ⟨hwf1, rfl⟩
    · rw [if_neg h0]
      have hrecon : cacheKey (cacheKey texture_id mip_level / 256)
          (cacheKey texture_id mip_level % 256) = cacheKey texture_id mip_level :=
        cacheKey_recon _ (cacheKey_lt _ _)
      have habs1 : lookupA ({ tc with prefetch_queue := ([] : List Nat) }
          : TextureCache).cache_entries
          (cacheKey (cacheKey texture_id mip_level / 256)
            (cacheKey texture_id mip_level % 256)) = none := by
        rw [hrecon]
        exact habs
      have hinst := install_entry_spec sf now
        { tc with prefetch_queue := ([] : List Nat) } (m.allocate (1024 * 1024)).2
        (cacheKey texture_id mip_level / 256) (cacheKey texture_id mip_level % 256)
        (m.allocate (1024 * 1024)).1 (1024 * 1024)
        (fun e => { e with
          data := ((TextureCache.allocate_entry sf now
            { tc with prefetch_queue := ([] : List Nat) }
            (m.allocate (1024 * 1024)).2
            (cacheKey texture_id mip_level / 256)
            (cacheKey texture_id mip_level % 256)
            (m.allocate (1024 * 1024)).1 (1024 * 1024)).2.read
            (m.allocate (1024 * 1024)).1 zeroBuf (1024 * 1024)).2.2,
          is_prefetched := true })
        hwf1 habs1 hsize (fun e => Or.inl rfl)
      exact ⟨TCWF_congr_frame hinst.1 rfl rfl rfl rfl, hinst.2⟩

/-- `predict_future_accesses` preserves the invariant. -/
theorem predict_wf (sf : ScoreFn) (tc : TextureCache) (m : MemoryHierarchy)
    (now : Nat) (hwf : TCWF tc)
    (hsize : 1024 * 1024 ≤ tc.max_cache_size_bytes) :
    TCWF (TextureCache.predict_future_accesses sf tc m now).1 ∧
    (TextureCache.predict_future_accesses sf tc m now).1.max_cache_size_bytes
      = tc.max_cache_size_bytes := by
  unfold TextureCache.predict_future_accesses
  split
  · exact ⟨hwf, rfl⟩
  · split
    · dsimp only
      split
      · split
        · exact prefetch_wf sf tc m _ _ now hwf hsize
        · exact ⟨hwf, rfl⟩
      · split
        · exact prefetch_wf sf tc m _ _ now hwf hsize
        · exact ⟨hwf, rfl⟩
    · exact ⟨hwf, rfl⟩

/-- Retuning the knobs and stamping the optimisation time touches neither the
entry table nor the size accounting, so the invariant carries over. -/
theorem tune_stamp_wf (tc : TextureCache) (now : Nat) (h : TCWF tc) :
    TCWF { tc.tune_performance_parameters with last_optimization_time := now } :=
  TCWF_congr_frame h rfl rfl rfl rfl

/-- Retuning and stamping preserves the capacity field. -/
theorem tune_stamp_max (tc : TextureCache) (now : Nat) :
    ({ tc.tune_performance_parameters with
        last_optimization_time := now } : TextureCache).max_cache_size_bytes
      = tc.max_cache_size_bytes := rfl

/-- The miss tail of `read_texture` preserves the invariant when the key is
absent and the computed entry size fits the capacity. -/
theorem readMiss_wf (sf : ScoreFn) (tc : TextureCache) (m : MemoryHierarchy)
    (texture_id mip_level offset size : Nat) (buf : Buf) (now : Nat)
    (hwf : TCWF tc)
    (habs : lookupA tc.cache_entries (cacheKey texture_id mip_level) = none)
    (hsize : max size (1024 * 1024) ≤ tc.max_cache_size_bytes) :
    TCWF (TextureCache.readMiss sf tc m texture_id mip_level offset size buf now).2.1 ∧
    (TextureCache.readMiss sf tc m texture_id mip_level offset size buf
        now).2.1.max_cache_size_bytes = tc.max_cache_size_bytes := by
  have hwf1 : TCWF { tc with metrics := { tc.metrics with
      cache_misses := tc.metrics.cache_misses + 1 } } :=
    TCWF_congr_frame hwf rfl rfl rfl rfl
  have habs1 : lookupA ({ tc with metrics := { tc.metrics with
      cache_misses := tc.metrics.cache_misses + 1 } } : TextureCache).cache_entries
      (cacheKey texture_id mip_level) = none := habs
  have hsize1 : max size (1024 * 1024) ≤ ({ tc with metrics := { tc.metrics with
      cache_misses := tc.metrics.cache_misses + 1 } } : TextureCache).max_cache_size_bytes :=
    hsize
  have Hgen : ∀ (mm : MemoryHierarchy) (addr : Nat) (dat : Buf),
      TCWF (TextureCache.updateEntry
        (TextureCache.allocate_entry sf now
          { tc with metrics := { tc.metrics with
              cache_misses := tc.metrics.cache_misses + 1 } }
          mm texture_id mip_level addr (max size (1024 * 1024))).1
        (cacheKey texture_id mip_level)
        (fun e => { e with data := dat, dataLen := max size (1024 * 1024),
                           last_access_time := now, access_count := 1,
                           is_prefetched := false })) ∧
      (TextureCache.updateEntry
        (TextureCache.allocate_entry sf now
          { tc with metrics := { tc.metrics with
              cache_misses := tc.metrics.cache_misses + 1 } }
          mm texture_id mip_level addr (max size (1024 * 1024))).1
        (cacheKey texture_id mip_level)
        (fun e => { e with data := dat, dataLen := max size (1024 * 1024),
                           last_access_time := now, access_count := 1,
                           is_prefetched := false })).max_cache_size_bytes
        = tc.max_cache_size_bytes :=
    fun mm addr dat =>
      install_entry_spec sf now _ mm texture_id mip_level addr _ _ hwf1 habs1
        hsize1 (fun e => Or.inr rfl)
  have HH := Hgen
    ((m.allocate (max size (1024 * 1024))).2.read
      (m.allocate (max size (1024 * 1024))).1 zeroBuf (max size (1024 * 1024))).2.1
    (m.allocate (max size (1024 * 1024))).1
    ((m.allocate (max size (1024 * 1024))).2.read
      (m.allocate (max size (1024 * 1024))).1 zeroBuf (max size (1024 * 1024))).2.2
  unfold TextureCache.readMiss
  dsimp only
  split
  · exact ⟨hwf1, rfl⟩
  · split
    · exact ⟨hwf1, rfl⟩
    · split
      · exact ⟨tune_stamp_wf _ now (TCWF_congr_frame HH.1 rfl rfl rfl rfl),
          (tune_stamp_max _ now).trans HH.2⟩
      · exact ⟨TCWF_congr_frame HH.1 rfl rfl rfl rfl, HH.2⟩

/-- Overwriting a resident entry with one of the same payload size (the hit
path's metadata touch) preserves the invariant. -/
theorem touch_entry_wf (tc : TextureCache) (k : Nat) (entry e1 : TCEntry)
    (hE : lookupA tc.cache_entries k = some entry)
    (hlen : e1.dataLen = entry.dataLen) (hwf : TCWF tc) (tc' : TextureCache)
    (he : tc'.cache_entries = insertA tc.cache_entries k e1)
    (hc : tc'.current_cache_size_bytes = tc.current_cache_size_bytes)
    (hm : tc'.max_cache_size_bytes = tc.max_cache_size_bytes)
    (hq : tc'.prefetch_queue = tc.prefetch_queue) : TCWF tc' := by
  obtain ⟨h1, h2, h3, h4⟩ := hwf
  refine ⟨?_, ?_, ?_, ?_⟩
  · rw [he, hc, sumPayload_insertA_present tc.cache_entries k e1 entry hE hlen]
    exact h1
  · rw [hc, hm]
    exact h2
  · rw [he, map_fst_insertA_present tc.cache_entries k e1 entry hE]
    exact h3
  · rw [hq]
    exact h4

/-- `read_texture` preserves the invariant whenever a resident key is only
read in bounds and the miss-path entry size fits the capacity. -/
theorem read_texture_wf (sf : ScoreFn) (tc : TextureCache) (m : MemoryHierarchy)
    (texture_id mip_level offset size : Nat) (buf : Buf) (now : Nat)
    (hwf : TCWF tc)
    (hres : (lookupA tc.cache_entries (cacheKey texture_id mip_level)).isSome = true →
      offset + size ≤ entryLen tc (cacheKey texture_id mip_level))
    (hsize : max size (1024 * 1024) ≤ tc.max_cache_size_bytes) :
    TCWF (TextureCache.read_texture sf tc m texture_id mip_level offset size buf now).2.1 ∧
    (TextureCache.read_texture sf tc m texture_id mip_level offset size buf
        now).2.1.max_cache_size_bytes = tc.max_cache_size_bytes := by
  unfold TextureCache.read_texture
  dsimp only
  cases hE : lookupA tc.cache_entries (cacheKey texture_id mip_level) with
  | none =>
    exact readMiss_wf sf _ m texture_id mip_level offset size buf now
      (TCWF_congr_frame hwf rfl rfl rfl rfl) hE hsize
  | some entry =>
    have hlen : offset + size ≤ entry.dataLen := by
      have h1 := hres (by rw [hE]; rfl)
      unfold entryLen at h1
      rw [hE] at h1
      exact h1
    dsimp only
    rw [if_pos hlen]
    have hsz2 : 1024 * 1024 ≤ tc.max_cache_size_bytes :=
      le_trans (Nat.le_max_right size (1024 * 1024)) hsize
    split
    · exact predict_wf sf _ m now
        (touch_entry_wf tc _ entry
          { entry with last_access_time := now,
                       access_count := entry.access_count + 1 }
          hE rfl hwf _ rfl rfl rfl rfl) hsz2
    · exact ⟨touch_entry_wf tc _ entry
        { entry with last_access_time := now,
                     access_count := entry.access_count + 1 }
        hE rfl hwf _ rfl rfl rfl rfl, rfl⟩

/-- The erase loop of `invalidate_texture`: the surviving payload shrinks, the
running counter ends at exactly the surviving payload's complement, and the
surviving keys are a sublist of the original keys. -/
theorem invalidateGo_spec (tid : Nat) (l : List (Nat × TCEntry)) (cur : Nat)
    (m : MemoryHierarchy) (h : sumPayload l ≤ cur) :
    sumPayload (invalidateGo tid l cur m).1 ≤ sumPayload l ∧
    (invalidateGo tid l cur m).2.1
      = cur - (sumPayload l - sumPayload (invalidateGo tid l cur m).1) ∧
    ((invalidateGo tid l cur m).1.map Prod.fst).Sublist (l.map Prod.fst) := by
  induction l generalizing cur m with
  | nil =>
    exact ⟨Nat.le_refl _, by simp [invalidateGo, sumPayload], by simp [invalidateGo]⟩
  | cons e rest ih =>
    have hsum : sumPayload (e :: rest) = e.2.dataLen + sumPayload rest := by
      simp [sumPayload]
    by_cases he : e.2.texture_id = tid
    · have h' : sumPayload rest ≤ cur - e.2.dataLen := by omega
      have H := ih (cur - e.2.dataLen) (m.deallocate e.2.address) h'
      rw [invalidateGo, if_pos he]
      refine ⟨le_trans H.1 (by omega), ?_, ?_⟩
      · rw [H.2.1, hsum]
        have := H.1
        omega
      · exact List.Sublist.trans H.2.2 (by simp)
    · have h' : sumPayload rest ≤ cur := by omega
      have H := ih cur m h'
      rw [invalidateGo, if_neg he]
      dsimp only
      have hsump : sumPayload (e :: (invalidateGo tid rest cur m).1)
          = e.2.dataLen + sumPayload (invalidateGo tid rest cur m).1 := by
        simp [sumPayload]
      refine ⟨by rw [hsump, hsum]; omega, ?_, ?_⟩
      · rw [H.2.1, hsump, hsum]
        have := H.1
        omega
      · simpa using List.Sublist.cons₂ e.1 H.2.2

/-- `invalidate_texture` preserves the invariant. -/
theorem invalidate_texture_wf (tc : TextureCache) (m : MemoryHierarchy)
    (tid : Nat) (hwf : TCWF tc) :
    TCWF (TextureCache.invalidate_texture tc m tid).1 ∧
    (TextureCache.invalidate_texture tc m tid).1.max_cache_size_bytes
      = tc.max_cache_size_bytes := by
  obtain ⟨h1, h2, h3, h4⟩ := hwf
  have H := invalidateGo_spec tid tc.cache_entries tc.current_cache_size_bytes m
    (le_of_eq h1)
  have hA := H.1
  unfold TextureCache.invalidate_texture TCWF
  dsimp only
  refine ⟨⟨?_, ?_, ?_, h4⟩, rfl⟩
  · rw [H.2.1]
    omega
  · rw [H.2.1]
    omega
  · exact List.Nodup.sublist H.2.2 h3

/-- `flush` preserves the invariant. -/
theorem flush_wf (tc : TextureCache) (m : MemoryHierarchy) (hwf : TCWF tc) :
    TCWF (TextureCache.flush tc m).1 ∧
    (TextureCache.flush tc m).1.max_cache_size_bytes = tc.max_cache_size_bytes := by
  exact ⟨⟨rfl, Nat.zero_le _, List.nodup_nil, rfl⟩, rfl⟩

/-- One safe operation preserves the invariant and the capacity field. -/
theorem TCstep_wf (sf : ScoreFn) (s : TextureCache × MemoryHierarchy) (op : TCOp)
    (hwf : TCWF s.1) (hsafe : TCOpSafe s.1 op) :
    TCWF (TCstep sf s op).1 ∧
    (TCstep sf s op).1.max_cache_size_bytes = s.1.max_cache_size_bytes := by
  cases op with
  | read id mip off size buf now =>
    exact read_texture_wf sf s.1 s.2 id mip off size buf now hwf hsafe.1 hsafe.2
  | prefetch id mip now => exact prefetch_wf sf s.1 s.2 id mip now hwf hsafe
  | invalidate id => exact invalidate_texture_wf s.1 s.2 id hwf
  | flush => exact flush_wf s.1 s.2 hwf

/-- The invariant is preserved along every safe trace. -/
theorem TCrun_wf (sf : ScoreFn) (s : TextureCache × MemoryHierarchy)
    (ops : List TCOp) (hwf : TCWF s.1) (hsafe : SafeTrace sf s ops) :
    TCWF (TCrun sf s ops).1 := by
  induction ops generalizing s with
  | nil => exact hwf
  | cons op rest ih =>
    cases hsafe with
    | cons _ _ _ hop hrest => exact ih _ (TCstep_wf sf s op hwf hop).1 hrest

/-- Claim C1 (amended): from a freshly constructed `TextureCache`, along any
trace of public operations in which every `read_texture` of a resident key
keeps `offset + size` within the resident payload and each operation's
computed entry size (`max(size, 1 MiB)`, `1 MiB` for prefetches) fits
`max_cache_size_bytes`, after the trace returns the payload sizes of the
resident entries sum to `current_cache_size_bytes`, which is at most
`max_cache_size_bytes`; since every prefix of such a trace is again such a
trace, the invariant holds after each operation. Without these side
conditions the source violates the invariant (`c1_cex`): `allocate_entry`
charges `max(size, 1 MiB)` but an oversize re-read of a resident key
re-inserts over the old entry, double-charging `current_cache_size_bytes`. -/
theorem c1_size_invariant (sf : ScoreFn) (mb t0 : Nat) (ops : List TCOp)
    (hsafe : SafeTrace sf (TextureCache.create mb t0, MemoryHierarchy.create) ops) :
    TCInv (TCrun sf (TextureCache.create mb t0, MemoryHierarchy.create) ops).1 := by
  have h := TCrun_wf sf (TextureCache.create mb t0, MemoryHierarchy.create) ops
    ⟨rfl, Nat.zero_le _, List.nodup_nil, rfl⟩ hsafe
  exact ⟨h.1, h.2.1⟩

/-- The C1 invariant at a concrete safe trace. -/
theorem c1_size_invariant_witness :
    TCInv (TCrun sf0 (TextureCache.create 256 0, MemoryHierarchy.create)
      [TCOp.invalidate 5]).1 :=
  c1_size_invariant sf0 256 0 [TCOp.invalidate 5]
    (SafeTrace.cons _ _ _ True.intro (SafeTrace.nil _))

/-! ## Key uniqueness of cached lines (claim C4) -/

/-- Reading back a just-set slot at an in-range index. -/
theorem get?_set_self {α : Type} (l : List α) (i : Nat) (x : α)
    (h : i < l.length) : (l.set i x).get? i = some x := by
  rw [List.get?_set_eq]
  cases hq : l.get? i with
  | none =>
    have := List.get?_eq_none.mp hq
    omega
  | some z => rfl

/-- Replacing a slot by a line with the same address and validity as the
valid line already there preserves per-set uniqueness. -/
theorem uniqSet_set_similar (l : List (Option CacheLine)) (i : Nat)
    (x : Option CacheLine) (hu : uniqSet l)
    (hx : ∀ lx, x = some lx → lx.valid = true →
      ∃ ly, l.get? i = some (some ly) ∧ ly.valid = true ∧
        ly.address = lx.address) :
    uniqSet (l.set i x) := by
  by_cases hlen : l.length ≤ i
  · rw [List.set_eq_of_length_le hlen]
    exact hu
  intro p q lp lq hpq hgp hgq hvp hvq
  by_cases hpi : i = p
  · subst hpi
    rw [get?_set_self l i x (by omega)] at hgp
    obtain ⟨ly, hly, hlyv, hlyaddr⟩ := hx lp (by injection hgp) hvp
    have hgq' : l.get? q = some (some lq) := by
      rw [List.get?_set_ne x l (by omega)] at hgq
      exact hgq
    have := hu i q ly lq hpq hly hgq' hlyv hvq
    rw [← hlyaddr]
    exact this
  · by_cases hqi : i = q
    · subst hqi
      rw [get?_set_self l i x (by omega)] at hgq
      obtain ⟨ly, hly, hlyv, hlyaddr⟩ := hx lq (by injection hgq) hvq
      have hgp' : l.get? p = some (some lp) := by
        rw [List.get?_set_ne x l (by omega)] at hgp
        exact hgp
      have := hu p i lp ly hpq hgp' hly hvp hlyv
      rw [← hlyaddr]
      exact this
    · rw [List.get?_set_ne x l (by omega)] at hgp
      rw [List.get?_set_ne x l (by omega)] at hgq
      exact hu p q lp lq hpq hgp hgq hvp hvq

/-- Installing a valid line whose address no valid line of the set holds
preserves per-set uniqueness. -/
theorem uniqSet_set_fresh (l : List (Option CacheLine)) (i : Nat) (x : CacheLine)
    (hu : uniqSet l)
    (hnone : ∀ j ly, l.get? j = some (some ly) → ly.valid = true →
      ly.address ≠ x.address) :
    uniqSet (l.set i (some x)) := by
  by_cases hlen : l.length ≤ i
  · rw [List.set_eq_of_length_le hlen]
    exact hu
  intro p q lp lq hpq hgp hgq hvp hvq
  by_cases hpi : i = p
  · subst hpi
    rw [get?_set_self l i (some x) (by omega)] at hgp
    have hxlp : x = lp := by simpa using hgp
    have hgq' : l.get? q = some (some lq) := by
      rw [List.get?_set_ne (some x) l (by omega)] at hgq
      exact hgq
    have := hnone q lq hgq' hvq
    rw [← hxlp]
    exact fun h => this h.symm
  · by_cases hqi : i = q
    · subst hqi
      rw [get?_set_self l i (some x) (by omega)] at hgq
      have hxlq : x = lq := by simpa using hgq
      have hgp' : l.get? p = some (some lp) := by
        rw [List.get?_set_ne (some x) l (by omega)] at hgp
        exact hgp
      have := hnone p lp hgp' hvp
      rw [← hxlq]
      exact this
    · rw [List.get?_set_ne (some x) l (by omega)] at hgp
      rw [List.get?_set_ne (some x) l (by omega)] at hgq
      exact hu p q lp lq hpq hgp hgq hvp hvq

/-- Swapping in a new slot list that is itself unique preserves cache-wide
uniqueness. -/
theorem uniq_withSet (c : GPUCache) (s0 : Nat) (nl : List (Option CacheLine))
    (hu : c.uniq) (hs : uniqSet nl) : (c.withSet s0 nl).uniq := by
  intro s
  show uniqSet (if s = s0 then nl else c.sets s)
  by_cases h : s = s0
  · rw [if_pos h]
    exact hs
  · rw [if_neg h]
    exact hu s

/-- `putLine` of a line sharing address and validity with the valid occupant
of its slot preserves uniqueness. -/
theorem uniq_putLine_similar (c : GPUCache) (a i : Nat) (x : CacheLine)
    (hu : c.uniq)
    (hx : x.valid = true → ∃ ly, (c.sets (c.setIdx a)).get? i = some (some ly) ∧
      ly.valid = true ∧ ly.address = x.address) :
    (c.putLine a i x).uniq :=
  uniq_withSet c (c.setIdx a) _ hu
    (uniqSet_set_similar _ i _ (hu _) (fun lx hlx hv => by
      cases hlx
      exact hx hv))

/-- `putLine` of a valid line at an address no valid line of the target set
holds preserves uniqueness. -/
theorem uniq_putLine_fresh (c : GPUCache) (a i : Nat) (x : CacheLine)
    (hu : c.uniq)
    (hnone : ∀ j ly, (c.sets (c.setIdx a)).get? j = some (some ly) →
      ly.valid = true → ly.address ≠ x.address) :
    (c.putLine a i x).uniq :=
  uniq_withSet c (c.setIdx a) _ hu (uniqSet_set_fresh _ i _ (hu _) hnone)

/-- `getD`-to-`get?` bridge for slot lists. -/
theorem get?_of_getD (l : List (Option CacheLine)) (i : Nat) (l0 : CacheLine)
    (hx : l.getD i none = some l0) : l.get? i = some (some l0) := by
  rw [List.getD_eq_get?] at hx
  cases hq : l.get? i with
  | none =>
    rw [hq] at hx
    simp at hx
  | some z =>
    rw [hq] at hx
    simp at hx
    rw [hx]

/-- `find_line` preserves uniqueness (it only bumps `access_time`). -/
theorem touch_uniq (c : GPUCache) (a : Nat) (hu : c.uniq) : (c.touch a).2.uniq := by
  cases hfi : c.findIdx a with
  | none =>
    rw [touch_eq_none c a hfi]
    exact hu
  | some i =>
    cases hx : (c.sets (c.setIdx a)).getD i none with
    | none =>
      unfold GPUCache.touch
      simp only [hfi, hx]
      exact hu
    | some l0 =>
      rw [touch_eq_found c a i l0 hfi hx]
      refine uniq_putLine_similar c a i _ hu ?_
      intro hv
      exact ⟨l0, get?_of_getD _ i l0 hx, hv, rfl⟩

/-- `GPUCache::read` preserves uniqueness. -/
theorem gpu_read_uniq (c : GPUCache) (a : Nat) (buf : Buf) (size : Nat)
    (hu : c.uniq) : (c.read a buf size).2.1.uniq := by
  unfold GPUCache.read
  dsimp only
  have ht := touch_uniq { c with access_count := c.access_count + 1 } a hu
  cases h : GPUCache.touch { c with access_count := c.access_count + 1 } a with
  | mk o c2 =>
    rw [h] at ht
    cases o with
    | none => exact ht
    | some p =>
      obtain ⟨l, i⟩ := p
      exact ht

/-- The overwrite-in-place after a hit (`find_line` bump followed by storing a
line with the found line's address) preserves uniqueness. -/
theorem uniq_touch_putLine (c : GPUCache) (a i : Nat) (l0 lb x : CacheLine)
    (hfi : c.findIdx a = some i)
    (hx : (c.sets (c.setIdx a)).getD i none = some l0)
    (hba : lb.address = l0.address) (hbv : lb.valid = l0.valid)
    (hxa : x.address = l0.address)
    (hu : c.uniq) : ((c.putLine a i lb).putLine a i x).uniq := by
  have hp := findIdxA_found _ _ i none hfi
  rw [hx] at hp
  simp only [matchesLine, Bool.and_eq_true, decide_eq_true_eq] at hp
  obtain ⟨hv0, _⟩ := hp
  have hg : (c.sets (c.setIdx a)).get? i = some (some l0) := get?_of_getD _ i l0 hx
  have hilt : i < (c.sets (c.setIdx a)).length := findIdxA_lt_length _ _ _ hfi
  have h1 : (c.putLine a i lb).uniq :=
    uniq_putLine_similar c a i lb hu (fun _ => ⟨l0, hg, hv0, hba.symm⟩)
  refine uniq_putLine_similar (c.putLine a i lb) a i x h1 ?_
  intro _
  refine ⟨lb, ?_, ?_, ?_⟩
  · rw [show (c.putLine a i lb).setIdx a = c.setIdx a from rfl, putLine_sets_self]
    exact get?_set_self _ i (some lb) hilt
  · rw [hbv]
    exact hv0
  · rw [hba, hxa]

/-- `GPUCache::write` preserves uniqueness: a hit overwrites in place, a miss
installs an address no valid line of the set held. -/
theorem gpu_write_uniq (c : GPUCache) (a : Nat) (d : Buf) (size : Nat)
    (hu : c.uniq) : (c.write a d size).2.uniq := by
  unfold GPUCache.write
  dsimp only
  split
  next l i c2 heq =>
    cases hfi : GPUCache.findIdx { c with access_count := c.access_count + 1 } a with
    | none =>
      rw [touch_eq_none _ a hfi] at heq
      simp at heq
    | some i0 =>
      cases hx : (({ c with access_count := c.access_count + 1 } : GPUCache).sets
          (GPUCache.setIdx { c with access_count := c.access_count + 1 } a)).getD
          i0 none with
      | none =>
        have hp := findIdxA_found _ _ i0 none hfi
        rw [hx] at hp
        simp [matchesLine] at hp
      | some l0 =>
        rw [touch_eq_found _ a i0 l0 hfi hx] at heq
        simp only [Prod.mk.injEq, Option.some.injEq] at heq
        obtain ⟨⟨hl, hi⟩, hc2⟩ := heq
        subst hc2
        subst hl
        subst hi
        exact uniq_touch_putLine { c with access_count := c.access_count + 1 }
          a i0 l0 _ _ hfi hx rfl rfl rfl hu
  next c2 heq =>
    have hc2 : c2 = { c with access_count := c.access_count + 1 } := by
      rcases touch_result { c with access_count := c.access_count + 1 } a with h | ⟨l, i, h⟩
      · rw [h] at heq
        simp only [Prod.mk.injEq] at heq
        exact heq.2.symm
      · rw [h] at heq
        simp at heq
    subst hc2
    cases hfi : GPUCache.findIdx { c with access_count := c.access_count + 1 } a with
    | some i0 =>
      cases hx : (({ c with access_count := c.access_count + 1 } : GPUCache).sets
          (GPUCache.setIdx { c with access_count := c.access_count + 1 } a)).getD
          i0 none with
      | none =>
        have hp := findIdxA_found _ _ i0 none hfi
        rw [hx] at hp
        simp [matchesLine] at hp
      | some l0 =>
        rw [touch_eq_found _ a i0 l0 hfi hx] at heq
        simp at heq
    | none =>
      have hall := (findIdxA_eq_none _ _).1 hfi
      refine uniq_putLine_fresh _ a _ _ hu ?_
      intro j ly hg hv
      have hg' : (c.sets (c.setIdx a)).get? j = some (some ly) := hg
      have hfail := hall _ (List.get?_mem hg')
      simp only [matchesLine, Bool.and_eq_true, decide_eq_true_eq, hv,
        Bool.true_and, decide_eq_false_iff_not] at hfail
      exact hfail

/-- `GPUCache::invalidate` preserves uniqueness. -/
theorem gpu_invalidate_uniq (c : GPUCache) (a : Nat) (hu : c.uniq) :
    (c.invalidate a).uniq := by
  unfold GPUCache.invalidate
  split
  next l i c2 heq =>
    have h2 : c2.uniq := by
      have := touch_uniq c a hu
      rw [heq] at this
      exact this
    refine uniq_putLine_similar c2 a i _ h2 ?_
    intro hv
    exact absurd hv (by simp)
  next c2 heq =>
    have := touch_uniq c a hu
    rw [heq] at this
    exact this

/-- `GPUCache::flush` leaves no valid lines, so uniqueness is vacuous. -/
theorem gpu_flush_uniq (c : GPUCache) : c.flush.uniq := by
  intro s p q lp lq hpq hgp hgq hvp hvq
  have hgp' : ((c.sets s).map (fun o => o.map (fun l =>
      ({ l with valid := false, dirty := false } : CacheLine)))).get? p
      = some (some lp) := hgp
  rw [List.get?_map] at hgp'
  rcases Option.map_eq_some'.1 hgp' with ⟨o, ho, hmo⟩
  rcases Option.map_eq_some'.1 hmo with ⟨l1, hl1, hfl⟩
  rw [← hfl] at hvp
  simp at hvp

/-- `find_line` finds nothing precisely when the whole-set scan fails. -/
theorem findLineSpec_eq_none_iff (c : GPUCache) (q : Nat) :
    c.findLineSpec q = none ↔
      findIdxA (matchesLine (c.alignDown q)) (c.sets (c.setIdx q)) = none := by
  constructor
  · intro h
    cases hfi : c.findIdx q with
    | none => exact hfi
    | some i =>
      unfold GPUCache.findLineSpec at h
      rw [hfi] at h
      dsimp only at h
      have hp := findIdxA_found _ _ i none hfi
      rw [h] at hp
      simp [matchesLine] at hp
  · intro h
    unfold GPUCache.findLineSpec
    rw [show c.findIdx q = none from h]

theorem invalidate_alignDown (c : GPUCache) (b q : Nat) :
    (c.invalidate b).alignDown q = c.alignDown q := by
  unfold GPUCache.alignDown
  rw [(gpu_invalidate_frame c b).1]

theorem invalidate_setIdx (c : GPUCache) (b q : Nat) :
    (c.invalidate b).setIdx q = c.setIdx q := by
  unfold GPUCache.setIdx
  rw [(gpu_invalidate_frame c b).1, (gpu_invalidate_frame c b).2.2.1]

/-- `putLine` leaves every other set untouched. -/
theorem putLine_sets_other (c : GPUCache) (a i : Nat) (l : CacheLine) (s : Nat)
    (h : s ≠ c.setIdx a) : (c.putLine a i l).sets s = c.sets s := by
  unfold GPUCache.putLine GPUCache.withSet
  dsimp only
  rw [if_neg h]

/-- What `GPUCache::invalidate` does to the slot lists: either the scan found
nothing and the cache is unchanged, or the first matching slot is rewritten to
an invalid copy and every other set is untouched. -/
theorem invalidate_spec (c : GPUCache) (b : Nat) :
    ((∀ s, (c.invalidate b).sets s = c.sets s) ∧
      findIdxA (matchesLine (c.alignDown b)) (c.sets (c.setIdx b)) = none) ∨
    ∃ i l0, (c.sets (c.setIdx b)).getD i none = some l0 ∧
      c.findIdx b = some i ∧
      (∀ s, s ≠ c.setIdx b → (c.invalidate b).sets s = c.sets s) ∧
      (c.invalidate b).sets (c.setIdx b)
        = (c.sets (c.setIdx b)).set i
            (some { l0 with access_time := c.access_count,
                            valid := false, dirty := false }) := by
  cases hfi : c.findIdx b with
  | none =>
    refine Or.inl ⟨?_, hfi⟩
    intro s
    unfold GPUCache.invalidate
    rw [touch_eq_none c b hfi]
  | some i =>
    cases hx : (c.sets (c.setIdx b)).getD i none with
    | none =>
      have hp := findIdxA_found _ _ i none hfi
      rw [hx] at hp
      simp [matchesLine] at hp
    | some l0 =>
      refine Or.inr ⟨i, l0, hx, rfl, ?_, ?_⟩
      · intro s hs
        unfold GPUCache.invalidate
        rw [touch_eq_found c b i l0 hfi hx]
        dsimp only
        rw [putLine_sets_other (c.putLine b i
              { l0 with access_time := c.access_count }) b i _ s hs,
            putLine_sets_other c b i _ s hs]
      · unfold GPUCache.invalidate
        rw [touch_eq_found c b i l0 hfi hx]
        dsimp only
        have e1 : ((c.putLine b i { l0 with access_time := c.access_count }).putLine
              b i { l0 with access_time := c.access_count, valid := false,
                            dirty := false }).sets (c.setIdx b)
            = ((c.putLine b i { l0 with access_time := c.access_count }).sets
                (c.setIdx b)).set i
                (some { l0 with access_time := c.access_count, valid := false,
                                dirty := false }) :=
          putLine_sets_self (c.putLine b i { l0 with access_time := c.access_count })
            b i _
        have e2 := putLine_sets_self c b i { l0 with access_time := c.access_count }
        rw [e1, e2, List.set_set]

/-- `invalidate` never makes a vanished line reappear. -/
theorem invalidate_preserves_none (c : GPUCache) (b q : Nat)
    (hn : c.findLineSpec q = none) : (c.invalidate b).findLineSpec q = none := by
  rw [findLineSpec_eq_none_iff] at hn
  rw [findLineSpec_eq_none_iff, invalidate_alignDown, invalidate_setIdx,
      findIdxA_eq_none]
  have hall := (findIdxA_eq_none _ _).1 hn
  intro x hxmem
  rcases invalidate_spec c b with ⟨hsets, _⟩ | ⟨i, l0, hx0, hfi, hother, hset⟩
  · rw [hsets] at hxmem
    exact hall x hxmem
  · by_cases hs : c.setIdx q = c.setIdx b
    · rw [hs, hset] at hxmem
      rcases List.mem_or_eq_of_mem_set hxmem with hmem | rfl
      · exact hall x (by rw [hs]; exact hmem)
      · rfl
    · rw [hother _ hs] at hxmem
      exact hall x hxmem

/-- On a duplicate-free cache, invalidating any address of a line removes
that line: `find_line` misses afterwards for every address of the line. -/
theorem invalidate_kills (c : GPUCache) (b q : Nat) (hu : c.uniq)
    (hdiv : q / c.line_size = b / c.line_size) :
    (c.invalidate b).findLineSpec q = none := by
  have halign : c.alignDown q = c.alignDown b := by
    unfold GPUCache.alignDown
    rw [hdiv]
  have hsetq : c.setIdx q = c.setIdx b := by
    unfold GPUCache.setIdx
    rw [hdiv]
  rw [findLineSpec_eq_none_iff, invalidate_alignDown, invalidate_setIdx,
      findIdxA_eq_none]
  intro x hxmem
  rcases invalidate_spec c b with ⟨hsets, hnone⟩ | ⟨i, l0, hx0, hfi, hother, hset⟩
  · rw [hsets] at hxmem
    have hall := (findIdxA_eq_none _ _).1 hnone
    rw [halign]
    exact hall x (by rw [← hsetq]; exact hxmem)
  · have hp := findIdxA_found _ _ i none hfi
    rw [hx0] at hp
    simp only [matchesLine, Bool.and_eq_true, decide_eq_true_eq] at hp
    obtain ⟨hv0, ha0⟩ := hp
    have hgi : (c.sets (c.setIdx b)).get? i = some (some l0) := get?_of_getD _ i l0 hx0
    rw [hsetq, hset] at hxmem
    cases x with
    | none => rfl
    | some lx =>
      rcases List.mem_iff_get?.1 hxmem with ⟨j, hj⟩
      have hilt : i < (c.sets (c.setIdx b)).length := findIdxA_lt_length _ _ _ hfi
      by_cases hji : j = i
      · subst hji
        rw [get?_set_self _ j _ hilt] at hj
        have hv : lx.valid = false := by
          have h1 := hj
          simp only [Option.some.injEq] at h1
          rw [← h1]
        simp [matchesLine, hv]
      · rw [List.get?_set_ne _ _ (fun h => hji h.symm)] at hj
        by_cases hvx : lx.valid = true
        · by_cases hax : lx.address = c.alignDown q
          · exfalso
            rcases Nat.lt_or_ge i j with hij | hij
            · have := hu (c.setIdx b) i j l0 lx hij hgi hj hv0 hvx
              rw [ha0, hax, halign] at this
              exact this rfl
            · have hji' : j < i := by omega
              have := hu (c.setIdx b) j i lx l0 hji' hj hgi hvx hv0
              rw [ha0, hax, halign] at this
              exact this rfl
          · simp [matchesLine, hax]
        · have : lx.valid = false := by
            cases hb : lx.valid
            · rfl
            · exact absurd hb hvx
          simp [matchesLine, this]

/-- A vanished line stays vanished along any invalidation sweep. -/
theorem invalidate_fold_none (bs : List Nat) (c : GPUCache) (q : Nat)
    (hn : c.findLineSpec q = none) :
    (bs.foldl GPUCache.invalidate c).findLineSpec q = none := by
  induction bs generalizing c with
  | nil => exact hn
  | cons b rest ih => exact ih _ (invalidate_preserves_none c b q hn)

/-- An invalidation sweep preserves uniqueness. -/
theorem invalidate_fold_uniq (bs : List Nat) (c : GPUCache) (hu : c.uniq) :
    (bs.foldl GPUCache.invalidate c).uniq := by
  induction bs generalizing c with
  | nil => exact hu
  | cons b rest ih => exact ih _ (gpu_invalidate_uniq c b hu)

/-- An invalidation sweep visiting any address of `q`'s line removes `q`'s
line for good. -/
theorem invalidate_fold_kills (bs : List Nat) (c : GPUCache) (q b : Nat)
    (hu : c.uniq) (hb : b ∈ bs) (hdiv : q / c.line_size = b / c.line_size) :
    (bs.foldl GPUCache.invalidate c).findLineSpec q = none := by
  induction bs generalizing c with
  | nil => cases hb
  | cons b0 rest ih =>
    rcases List.mem_cons.mp hb with rfl | hmem
    · exact invalidate_fold_none rest _ q (invalidate_kills c b q hu hdiv)
    · exact ih _ (gpu_invalidate_uniq c b0 hu) hmem
        (by rw [(gpu_invalidate_frame c b0).1]; exact hdiv)

/-- Both caches hold at most one valid line per address. -/
def MHuniq (m : MemoryHierarchy) : Prop := m.l1.uniq ∧ m.l2.uniq

/-- The deallocation sweep acts on each cache as a plain invalidation fold. -/
theorem dealloc_fold_sets (bs : List Nat) (m : MemoryHierarchy) :
    (bs.foldl (fun acc p =>
      { acc with l1 := acc.l1.invalidate p, l2 := acc.l2.invalidate p }) m).l1
      = bs.foldl GPUCache.invalidate m.l1 ∧
    (bs.foldl (fun acc p =>
      { acc with l1 := acc.l1.invalidate p, l2 := acc.l2.invalidate p }) m).l2
      = bs.foldl GPUCache.invalidate m.l2 := by
  induction bs generalizing m with
  | nil => exact ⟨rfl, rfl⟩
  | cons b rest ih => exact ih _

/-- Every hierarchy operation preserves line-address uniqueness in both
caches. -/
theorem mh_step_uniq (m : MemoryHierarchy) (op : MOp) (h : MHuniq m) :
    MHuniq (m.step op) := by
  obtain ⟨h1, h2⟩ := h
  cases op with
  | read a size =>
    show MHuniq (m.read a zeroBuf size).2.1
    unfold MemoryHierarchy.read
    dsimp only
    split
    next l1a buf1 heq =>
      refine ⟨?_, h2⟩
      have := gpu_read_uniq m.l1 a zeroBuf size h1
      rw [heq] at this
      exact this
    next l1a buf1 heq =>
      have hu1 : l1a.uniq := by
        have := gpu_read_uniq m.l1 a zeroBuf size h1
        rw [heq] at this
        exact this
      split
      next l2a buf2 heq2 =>
        have hu2 : l2a.uniq := by
          have := gpu_read_uniq m.l2 a zeroBuf size h2
          rw [heq2] at this
          exact this
        exact ⟨gpu_write_uniq l1a a buf2 size hu1, hu2⟩
      next l2a buf2 heq2 =>
        have hu2 : l2a.uniq := by
          have := gpu_read_uniq m.l2 a zeroBuf size h2
          rw [heq2] at this
          exact this
        split
        · exact ⟨gpu_write_uniq l1a a _ size hu1, gpu_write_uniq l2a a _ size hu2⟩
        · exact ⟨hu1, hu2⟩
  | write a d size =>
    have hc := mh_write_caches m a d size
    show MHuniq (m.write a d size).2
    constructor
    · rw [hc.1]
      exact gpu_write_uniq m.l1 a d size h1
    · rw [hc.2.1]
      exact gpu_write_uniq m.l2 a d size h2
  | allocate s =>
    show MHuniq (m.allocate s).2
    unfold MemoryHierarchy.allocate
    dsimp only
    split
    · exact ⟨h1, h2⟩
    · exact ⟨h1, h2⟩
  | deallocate a =>
    show MHuniq (m.deallocate a)
    unfold MemoryHierarchy.deallocate
    split
    · exact ⟨h1, h2⟩
    next size heq =>
      dsimp only
      constructor
      · rw [(dealloc_fold_sets (strides a size) m).1]
        exact invalidate_fold_uniq _ _ h1
      · rw [(dealloc_fold_sets (strides a size) m).2]
        exact invalidate_fold_uniq _ _ h2
  | flushAll =>
    exact ⟨gpu_flush_uniq m.l1, gpu_flush_uniq m.l2⟩

/-- Uniqueness holds on the fresh hierarchy and along every trace. -/
theorem mh_run_uniq (ops : List MOp) :
    MHuniq (MemoryHierarchy.run MemoryHierarchy.create ops) := by
  have hcreate : MHuniq MemoryHierarchy.create := by
    constructor <;>
    · intro s p q lp lq hpq hgp hgq hvp hvq
      have hmem := List.get?_mem hgp
      have h2 := List.eq_of_mem_replicate hmem
      simp at h2
  have main : ∀ (ops : List MOp) (m : MemoryHierarchy), MHuniq m →
      MHuniq (MemoryHierarchy.run m ops) := by
    intro ops
    induction ops with
    | nil => intro m h; exact h
    | cons op rest ih => intro m h; exact ih (m.step op) (mh_step_uniq m op h)
  exact main ops MemoryHierarchy.create hcreate

/-- Membership in the 64-byte deallocation stride list. -/
theorem mem_strides (a s b : Nat) (hb : a ≤ b) (hlt : b < a + s)
    (hdvd : 64 ∣ (b - a)) : b ∈ strides a s := by
  unfold strides
  rw [List.mem_map]
  refine ⟨(b - a) / 64, ?_, ?_⟩
  · rw [List.mem_range]
    omega
  · omega

/-- Claim C4 (amended): for every recorded allocation `(a, s)` of a reachable
hierarchy state whose base is 64-byte aligned, `deallocate(a)` leaves no valid
L1 or L2 line matching any address `q` in `[a, a+s)`: every covering line of
both caches is invalidated, so no access in the range can hit a line filled
before the deallocation. For a base that is only 16-byte aligned (which the
bump allocator can produce) the claim fails: the 64-byte stride loop starts at
the unaligned base and can skip a covering line entirely (`c4_cex`). -/
theorem c4_dealloc_invalidates (ops : List MOp) (a s q : Nat)
    (halloc : lookupA (MemoryHierarchy.run MemoryHierarchy.create ops).allocations a
      = some s)
    (halign : 64 ∣ a) (hq1 : a ≤ q) (hq2 : q < a + s) :
    ((MemoryHierarchy.run MemoryHierarchy.create ops).deallocate a).l1.findLineSpec q
      = none ∧
    ((MemoryHierarchy.run MemoryHierarchy.create ops).deallocate a).l2.findLineSpec q
      = none := by
  obtain ⟨hf1, hf2⟩ := mh_run_frame ops
  obtain ⟨hu1, hu2⟩ := mh_run_uniq ops
  unfold MemoryHierarchy.deallocate
  simp only [halloc]
  constructor
  · rw [(dealloc_fold_sets (strides a s)
      (MemoryHierarchy.run MemoryHierarchy.create ops)).1]
    have hls : (MemoryHierarchy.run MemoryHierarchy.create ops).l1.line_size = 64 :=
      hf1.1
    refine invalidate_fold_kills (strides a s) _ q (q / 64 * 64) hu1 ?_ ?_
    · exact mem_strides a s (q / 64 * 64) (by omega) (by omega) (by omega)
    · rw [hls]
      omega
  · rw [(dealloc_fold_sets (strides a s)
      (MemoryHierarchy.run MemoryHierarchy.create ops)).2]
    have hls : (MemoryHierarchy.run MemoryHierarchy.create ops).l2.line_size = 128 :=
      hf2.1
    by_cases hcase : a ≤ q / 128 * 128
    · refine invalidate_fold_kills (strides a s) _ q (q / 128 * 128) hu2 ?_ ?_
      · exact mem_strides a s (q / 128 * 128) hcase (by omega) (by omega)
      · rw [hls]
        omega
    · refine invalidate_fold_kills (strides a s) _ q a hu2 ?_ ?_
      · exact mem_strides a s a (Nat.le_refl a) (by omega) (by omega)
      · rw [hls]
        omega

/-- The C4 invalidation at a concrete trace: a 64-byte allocation at the
64-aligned base `0x10000000`, written (hence cached in both levels), then
deallocated. -/
theorem c4_dealloc_invalidates_witness :
    ((MemoryHierarchy.run MemoryHierarchy.create
        [MOp.allocate 64, MOp.write 0x10000000 (fun _ => 5) 1]).deallocate
        0x10000000).l1.findLineSpec 0x10000000 = none ∧
    ((MemoryHierarchy.run MemoryHierarchy.create
        [MOp.allocate 64, MOp.write 0x10000000 (fun _ => 5) 1]).deallocate
        0x10000000).l2.findLineSpec 0x10000000 = none :=
  c4_dealloc_invalidates [MOp.allocate 64, MOp.write 0x10000000 (fun _ => 5) 1]
    0x10000000 64 0x10000000 (by decide) (by decide) (by decide) (by decide)
